import Mathlib

/-!
Verification development for the yt-cipher service core.

The definitions below are shallow embeddings of the TypeScript sources:
`src/utils.ts` (URL validation, player-id extraction), `src/playerCache.ts`
(cache-key derivation and the miss path of `getPlayerFilePath`),
`src/stsCache.ts` + `handlers/getSts.ts`, `handlers/resolveUrl.ts`,
`src/taskQueueDeque.ts` (the two `ArrayTaskQueue` generations), and the
deque-based `src/workerPool.ts`.  Browser/runtime primitives (`new URL`,
`URLSearchParams`, `crypto.subtle.digest`, `fetch`, the filesystem, timers
and the microtask queue) are modelled explicitly: pure parsers for the URL
APIs, an abstract digest function parameter for SHA-256, and event-labelled
state transitions for the effectful parts.
-/

namespace YtCipher

/-- Boolean prefix test on char lists; models `String.prototype.startsWith`
(and the anchored part of regex matching). -/
def listPrefix : List Char → List Char → Bool
  | [], _ => true
  | _ :: _, [] => false
  | p :: ps, c :: cs => p = c && listPrefix ps cs

theorem listPrefix_nil (cs : List Char) : listPrefix [] cs = true := rfl

theorem listPrefix_trans_head (p : Char) (ps cs : List Char)
    (h : listPrefix (p :: ps) cs = true) : listPrefix [p] cs = true := by
  cases cs with
  | nil => simp [listPrefix] at h
  | cons c cs =>
    simp [listPrefix] at h ⊢
    exact h.1

/-! ## URL model

`new URL(...)` / `URLSearchParams` are runtime APIs, not repository code; we
model them for inputs of the shape `scheme://[user@]host[:port]/path?query`.
Percent-decoding and `+`-as-space are not modelled (no claim depends on
them); scheme and host are lowercased as the WHATWG parser does.  Inputs not
of that shape (including every string that starts with `/`) are modelled as
parse failures, matching `new URL` throwing. -/

structure URLRec where
  scheme : String
  host : String
  pathname : String
  query : List (String × String)
deriving Repr, DecidableEq

/-- Split one query piece `k=v` (or bare `k`) into a pair. -/
def queryPiece (cs : List Char) : String × String :=
  let k := cs.takeWhile (fun c => c ≠ '=')
  let rest := cs.drop k.length
  match rest with
  | '=' :: vs => (String.mk k, String.mk vs)
  | _ => (String.mk k, "")

/-- Split a char list on a single separator char; models
`String.prototype.split` with a one-char separator (keeps empty pieces). -/
def splitOnCharList (sep : Char) : List Char → List (List Char)
  | [] => [[]]
  | c :: cs =>
    if c = sep then [] :: splitOnCharList sep cs
    else
      match splitOnCharList sep cs with
      | [] => [[c]]
      | h :: t => (c :: h) :: t

/-- Split a query string on `&`, dropping empty pieces, and parse each piece;
models `URLSearchParams` construction (without percent-decoding). -/
def parseQuery (cs : List Char) : List (String × String) :=
  (splitOnCharList '&' cs).filterMap
    (fun piece => if piece = [] then none else some (queryPiece piece))

/-- Drop everything up to and including the last `@` (WHATWG: the hostname
begins after the last userinfo separator). -/
def afterLastAt (cs : List Char) : List Char :=
  (cs.reverse.takeWhile (fun c => c ≠ '@')).reverse

/-- Model of `new URL(s)` for `scheme://[user@]host[:port][/path][?query]`
inputs: returns `none` where the real parser throws (empty scheme or host),
and treats every other shape as a parse failure as well. -/
def parseURL (s : String) : Option URLRec :=
  let cs := s.toList
  let scheme := cs.takeWhile Char.isAlpha
  let rest0 := cs.drop scheme.length
  if scheme = [] then none
  else if listPrefix "://".toList rest0 then
    let rest := rest0.drop 3
    let hostport := rest.takeWhile (fun c => c ≠ '/' && c ≠ '?' && c ≠ '#')
    let afterHost := rest.drop hostport.length
    let host := (afterLastAt hostport).takeWhile (fun c => c ≠ ':')
    if host = [] then none
    else
      let path := afterHost.takeWhile (fun c => c ≠ '?' && c ≠ '#')
      let afterPath := afterHost.drop path.length
      let queryChars :=
        match afterPath with
        | '?' :: qs => qs.takeWhile (fun c => c ≠ '#')
        | _ => []
      some { scheme := String.mk (scheme.map Char.toLower)
             host := String.mk (host.map Char.toLower)
             pathname := if path = [] then "/" else String.mk path
             query := parseQuery queryChars }
  else none

/-! ## src/utils.ts -/

/-- The allow-list from `src/utils.ts`. -/
def ALLOWED_HOSTNAMES : List String := ["youtube.com", "www.youtube.com", "m.youtube.com"]

/-- Shallow embedding of `validateAndNormalizePlayerUrl` (src/utils.ts).
A thrown `Error` is modelled as `Except.error` carrying the message.  Note
that the `Player URL from invalid host` throw happens inside the `try`
block, so the surrounding `catch` replaces it with the `Invalid player URL`
message; observably both failure modes carry that message. -/
def validateAndNormalizePlayerUrl (playerUrl : String) : Except String String :=
  if listPrefix "/".toList playerUrl.toList then
    if listPrefix "/s/player/".toList playerUrl.toList then
      Except.ok ("https://www.youtube.com" ++ playerUrl)
    else
      Except.error ("Invalid player path: " ++ playerUrl)
  else
    match parseURL playerUrl with
    | some u =>
      if ALLOWED_HOSTNAMES.contains u.host then Except.ok playerUrl
      else Except.error ("Invalid player URL: " ++ playerUrl)
    | none => Except.error ("Invalid player URL: " ++ playerUrl)

/-- Model of `indexOf` on a list of path segments: index of the first
occurrence, or `none` (JS returns `-1`). -/
def jsIndexOf (l : List String) (x : String) : Option Nat :=
  match l with
  | [] => none
  | a :: t => if a = x then some 0 else (jsIndexOf t x).map (· + 1)

/-- Scan for the regex `\/s\/player\/([^\/]+)` : find the leftmost
occurrence of `/s/player/` followed by at least one non-`/` char, and return
the maximal non-`/` run after it. -/
def sPlayerScan : List Char → Option String
  | [] => none
  | c :: cs =>
    if listPrefix "/s/player/".toList (c :: cs) then
      let tail := (c :: cs).drop "/s/player/".length
      let cap := tail.takeWhile (fun d => d ≠ '/')
      if cap = [] then sPlayerScan cs else some (String.mk cap)
    else sPlayerScan cs

/-- Shallow embedding of `extractPlayerId` (src/utils.ts): on a parseable
URL, split the pathname on `/`, find the segment after the first `player`
segment; if `new URL` throws, fall back to the
`/\/s\/player\/([^\/]+)/` regex; otherwise return `"unknown"`. -/
def extractPlayerId (playerUrl : String) : String :=
  match parseURL playerUrl with
  | some u =>
    let pathParts := (splitOnCharList '/' u.pathname.toList).map String.mk
    match jsIndexOf pathParts "player" with
    | some i =>
      if i + 1 < pathParts.length then pathParts[i + 1]! else "unknown"
    | none => "unknown"
  | none =>
    match sPlayerScan playerUrl.toList with
    | some m => m
    | none => "unknown"

/-! ## src/playerCache.ts : cache-key derivation

`crypto.subtle.digest('SHA-256', ...)` is a runtime primitive; the key
derivation is parameterised over the hex-digest function
`sha256hex : String → String` (the real one always returns 64 lowercase hex
chars). -/

/-- One char of the `replace(/[^a-zA-Z0-9_\-]/g, '_')` sanitiser. -/
def sanitizeChar (c : Char) : Char :=
  if c.isAlphanum || c = '_' || c = '-' then c else '_'

/-- The `safeKey` sanitiser from `getPlayerFilePath`. -/
def sanitizeKey (s : String) : String :=
  String.mk (s.toList.map sanitizeChar)

/-- Cache key chosen by `getPlayerFilePath` (src/playerCache.ts) before
sanitisation: with region-ignoring keying, the extracted player id unless
extraction failed (`!playerId || playerId === "unknown"`), in which case the
SHA-256 hex digest of the full URL; otherwise always the digest. -/
def cacheKeyRaw (sha256hex : String → String) (ignoreRegion : Bool)
    (playerUrl : String) : String :=
  if ignoreRegion then
    let playerId := extractPlayerId playerUrl
    if playerId = "" || playerId = "unknown" then sha256hex playerUrl
    else playerId
  else sha256hex playerUrl

/-- The cache file name `${safeKey}.js` from `getPlayerFilePath`. -/
def cacheFileName (sha256hex : String → String) (ignoreRegion : Bool)
    (playerUrl : String) : String :=
  sanitizeKey (cacheKeyRaw sha256hex ignoreRegion playerUrl) ++ ".js"

/-- Modelled from the spec: the *region-ignoring* key policy as §3 of the
spec words it — the sanitized player id, falling back to the SHA-256 key
when extraction fails **or the sanitized id is longer than 120 chars**.
Used only to compare the spec's keying against the source's. -/
def specRegionIgnoringKey (sha256hex : String → String) (playerUrl : String) : String :=
  let playerId := extractPlayerId playerUrl
  if playerId = "" || playerId = "unknown" then sha256hex playerUrl
  else
    let s := sanitizeKey playerId
    if 120 < s.length then sha256hex playerUrl else s

/-! ## List helpers for computing the parsers on `prefix ++ variable` inputs -/

theorem takeWhile_all_append (p : Char → Bool) (l₁ l₂ : List Char)
    (h : l₁.all p = true) :
    (l₁ ++ l₂).takeWhile p = l₁ ++ l₂.takeWhile p := by
  induction l₁ with
  | nil => simp
  | cons c t ih =>
    simp only [List.all_cons, Bool.and_eq_true] at h
    simp [List.takeWhile_cons, h.1, ih h.2]

theorem takeWhile_cons_neg (p : Char → Bool) (c : Char) (l : List Char)
    (hc : p c = false) : (c :: l).takeWhile p = [] := by
  simp [List.takeWhile_cons, hc]

theorem takeWhile_all_eq (p : Char → Bool) (l : List Char)
    (h : l.all p = true) : l.takeWhile p = l := by
  induction l with
  | nil => simp
  | cons c t ih =>
    simp only [List.all_cons, Bool.and_eq_true] at h
    simp [List.takeWhile_cons, h.1, ih h.2]

theorem splitOnCharList_ne_nil (sep : Char) (l : List Char) :
    splitOnCharList sep l ≠ [] := by
  cases l with
  | nil => simp [splitOnCharList]
  | cons c t =>
    simp only [splitOnCharList]
    split
    · simp
    · split <;> simp

theorem splitOnCharList_sep_cons (sep : Char) (t : List Char) :
    splitOnCharList sep (sep :: t) = [] :: splitOnCharList sep t := by
  simp [splitOnCharList]

theorem splitOnCharList_all_append (sep : Char) (l₁ t : List Char)
    (h : l₁.all (fun c => c ≠ sep) = true) :
    splitOnCharList sep (l₁ ++ sep :: t) = l₁ :: splitOnCharList sep t := by
  induction l₁ with
  | nil => simpa using splitOnCharList_sep_cons sep t
  | cons c l ih =>
    simp only [List.all_cons, Bool.and_eq_true] at h
    have hc : ¬ c = sep := by simpa using h.1
    have ihe := ih h.2
    simp only [List.cons_append, splitOnCharList, if_neg hc]
    rw [show l.append (sep :: t) = l ++ sep :: t from rfl, ihe]

theorem all_mono (l : List Char) (p q : Char → Bool)
    (h : ∀ c, p c = true → q c = true) (hl : l.all p = true) : l.all q = true := by
  simp only [List.all_eq_true] at hl ⊢
  exact fun c hc => h c (hl c hc)

/-- Computation of the URL model on a well-formed youtube player URL:
`https://www.youtube.com` followed by a query-free path. -/
theorem parseURL_yt (path : String)
    (hp0 : listPrefix "/".toList path.toList = true)
    (hp : path.toList.all (fun c => c ≠ '?' && c ≠ '#') = true) :
    parseURL ("https://www.youtube.com" ++ path) =
      some ⟨"https", "www.youtube.com", path, []⟩ := by
  obtain ⟨t, ht⟩ : ∃ t, path.toList = '/' :: t := by
    cases hpt : path.toList with
    | nil => rw [hpt] at hp0; simp [listPrefix] at hp0
    | cons c cs =>
      rw [hpt] at hp0
      simp only [show "/".toList = ['/'] from rfl, listPrefix, Bool.and_eq_true,
        decide_eq_true_eq] at hp0
      exact ⟨cs, by rw [hp0.1]⟩
  have hcs : ("https://www.youtube.com" ++ path).toList =
      "https".toList ++ (':' :: '/' :: '/' ::
        ("www.youtube.com".toList ++ path.toList)) := by
    rw [show ("https://www.youtube.com" ++ path).toList =
        "https://www.youtube.com".toList ++ path.toList from String.data_append _ _,
      show "https://www.youtube.com".toList =
        "https".toList ++ [':', '/', '/'] ++ "www.youtube.com".toList by decide]
    simp [List.append_assoc]
  have hallq : ('/' :: t).all (fun c => c ≠ '?' && c ≠ '#') = true := by
    rw [← ht]; exact hp
  simp only [parseURL, hcs, ht]
  rw [takeWhile_all_append _ _ _ (by decide),
    takeWhile_cons_neg _ _ _ (by decide), List.append_nil]
  rw [if_neg (by decide)]
  rw [List.drop_left]
  rw [if_pos (by simp [listPrefix])]
  rw [show (':' :: '/' :: '/' :: ("www.youtube.com".toList ++ '/' :: t)).drop 3 =
    "www.youtube.com".toList ++ '/' :: t from rfl]
  rw [takeWhile_all_append _ _ _ (by decide),
    takeWhile_cons_neg _ _ _ (by decide), List.append_nil]
  rw [List.drop_left]
  rw [if_neg (by decide)]
  rw [takeWhile_all_eq _ _ hallq, List.drop_length]
  rw [if_neg (by simp)]
  have hpth : String.mk ('/' :: t) = path := by rw [← ht]; exact rfl
  rw [hpth]
  have hscheme : String.mk (List.map Char.toLower "https".toList) = "https" := by decide
  have hhost : String.mk (List.map Char.toLower
      (List.takeWhile (fun c => decide (c ≠ ':'))
        (afterLastAt "www.youtube.com".toList))) = "www.youtube.com" := by decide
  rw [hscheme, hhost]
  simp [parseQuery, splitOnCharList]

theorem toList_append (a b : String) : (a ++ b).toList = a.toList ++ b.toList :=
  String.data_append a b

/-- On a well-formed player URL `https://www.youtube.com/s/player/<id>/<rest>`,
`extractPlayerId` returns `<id>`. -/
theorem extractPlayerId_std (id rest : String)
    (hid : id.toList.all (fun c => c ≠ '/' && c ≠ '?' && c ≠ '#') = true)
    (hrest : rest.toList.all (fun c => c ≠ '?' && c ≠ '#') = true) :
    extractPlayerId ("https://www.youtube.com" ++ ("/s/player/" ++ (id ++ ("/" ++ rest)))) = id := by
  have hid2 : ∀ c ∈ id.toList, ¬c = '?' ∧ ¬c = '#' := by
    intro c hc
    have := List.all_eq_true.mp hid c hc
    simp only [Bool.and_eq_true, decide_eq_true_eq] at this
    exact ⟨this.1.2, this.2⟩
  have hrest2 : ∀ c ∈ rest.toList, ¬c = '?' ∧ ¬c = '#' := by
    intro c hc
    have := List.all_eq_true.mp hrest c hc
    simp only [Bool.and_eq_true, decide_eq_true_eq] at this
    exact this
  have hshape : ("/s/player/" ++ (id ++ ("/" ++ rest))).toList =
      '/' :: (['s'] ++ '/' :: ("player".toList ++ '/' ::
        (id.toList ++ '/' :: rest.toList))) := by
    simp only [toList_append]
    rw [show "/s/player/".toList =
      '/' :: 's' :: '/' :: 'p' :: 'l' :: 'a' :: 'y' :: 'e' :: 'r' :: ['/'] by decide,
      show "/".toList = ['/'] by decide]
    simp
  have hp0 : listPrefix "/".toList ("/s/player/" ++ (id ++ ("/" ++ rest))).toList = true := by
    rw [hshape]
    simp [listPrefix]
  have hp : ("/s/player/" ++ (id ++ ("/" ++ rest))).toList.all
      (fun c => c ≠ '?' && c ≠ '#') = true := by
    rw [hshape, List.all_eq_true]
    intro c hc
    simp only [List.mem_cons, List.mem_append, List.mem_singleton,
      List.not_mem_nil, or_false,
      show "player".toList = ['p', 'l', 'a', 'y', 'e', 'r'] from rfl] at hc
    rcases hc with rfl | rfl | rfl | (rfl | rfl | rfl | rfl | rfl | rfl) | rfl | hm | rfl | hm
    all_goals
      first
      | decide
      | (simp only [Bool.and_eq_true, decide_eq_true_eq]
         first
         | exact hid2 c hm
         | exact hrest2 c hm)
  have hurl := parseURL_yt _ hp0 hp
  have hidslash : id.toList.all (fun c => c ≠ '/') = true := by
    rw [List.all_eq_true]
    intro c hc
    have := List.all_eq_true.mp hid c hc
    simp only [Bool.and_eq_true, decide_eq_true_eq] at this
    simpa using this.1.1
  simp only [extractPlayerId, hurl]
  rw [hshape]
  rw [splitOnCharList_sep_cons]
  rw [splitOnCharList_all_append '/' ['s'] _ (by decide)]
  rw [splitOnCharList_all_append '/' "player".toList _ (by decide)]
  rw [splitOnCharList_all_append '/' id.toList _ hidslash]
  simp only [List.map_cons]
  rw [show String.mk [] = "" from rfl, show String.mk ['s'] = "s" from rfl,
    show String.mk "player".toList = "player" from rfl,
    show String.mk id.toList = id from rfl]
  rw [show ∀ l : List String, jsIndexOf ("" :: "s" :: "player" :: l) "player" = some 2 by
    intro l
    simp [jsIndexOf]]
  simp only [Option.map_some]
  rw [if_pos (by simp only [List.length_cons]; omega)]
  simp [List.getElem!_cons_succ, List.getElem!_cons_zero]

theorem sanitizeChar_ok (c : Char) :
    ((sanitizeChar c).isAlphanum || sanitizeChar c = '_' || sanitizeChar c = '-') = true := by
  unfold sanitizeChar
  split
  case isTrue hc => exact hc
  case isFalse => decide

/-- C5 (amended): with region-ignoring keying enabled, the cache key for a
player URL is the player id parsed from the URL path, sanitized to
`[A-Za-z0-9_-]` with other characters replaced by `_`; the SHA-256 fallback
is taken exactly when id extraction fails (empty or `"unknown"`) — there is
no length cap, so an id longer than 120 characters is still used. -/
theorem cacheKey_region_ignoring_policy (h : String → String) (id rest : String)
    (hid : id.toList.all (fun c => c ≠ '/' && c ≠ '?' && c ≠ '#') = true)
    (hrest : rest.toList.all (fun c => c ≠ '?' && c ≠ '#') = true)
    (hne : id ≠ "") (hunk : id ≠ "unknown") :
    cacheKeyRaw h true ("https://www.youtube.com" ++ ("/s/player/" ++ (id ++ ("/" ++ rest)))) = id
    ∧ cacheFileName h true ("https://www.youtube.com" ++ ("/s/player/" ++ (id ++ ("/" ++ rest))))
        = sanitizeKey id ++ ".js"
    ∧ (∀ u, (extractPlayerId u = "" ∨ extractPlayerId u = "unknown") →
        cacheKeyRaw h true u = h u)
    ∧ (∀ u, extractPlayerId u ≠ "" → extractPlayerId u ≠ "unknown" →
        cacheKeyRaw h true u = extractPlayerId u)
    ∧ (∀ w, (sanitizeKey w).toList.all
        (fun c => c.isAlphanum || c = '_' || c = '-') = true) := by
  have hkey : cacheKeyRaw h true
      ("https://www.youtube.com" ++ ("/s/player/" ++ (id ++ ("/" ++ rest)))) = id := by
    simp only [cacheKeyRaw, extractPlayerId_std id rest hid hrest, if_true]
    simp [hne, hunk]
  refine ⟨hkey, ?_, ?_, ?_, ?_⟩
  · simp only [cacheFileName, hkey]
  · intro u hu
    simp only [cacheKeyRaw, if_true]
    rcases hu with hu | hu <;> simp [hu]
  · intro u hu1 hu2
    simp only [cacheKeyRaw, if_true]
    simp [hu1, hu2]
  · intro w
    show (String.mk (w.toList.map sanitizeChar)).toList.all _ = true
    rw [show (String.mk (w.toList.map sanitizeChar)).toList = w.toList.map sanitizeChar from rfl,
      List.all_map]
    rw [List.all_eq_true]
    intro c _
    exact sanitizeChar_ok c

theorem cacheKey_region_ignoring_policy_witness :
    cacheKeyRaw (fun _ => "deadbeef") true
      ("https://www.youtube.com" ++ ("/s/player/" ++ ("abc0_-X" ++ ("/" ++ "base.js")))) = "abc0_-X" :=
  (cacheKey_region_ignoring_policy (fun _ => "deadbeef") "abc0_-X" "base.js"
    (by decide) (by decide) (by decide) (by decide)).1

/-- Stand-in for the SHA-256 hex digest: like the real digest it returns 64
hex characters on every input. -/
def hexStub : String → String := fun _ => String.mk (List.replicate 64 'f')

/-- A player id of 121 `a` characters: sanitized length exceeds 120. -/
def longPlayerId : String := String.mk (List.replicate 121 'a')

def longPlayerUrl : String :=
  "https://www.youtube.com" ++ ("/s/player/" ++ (longPlayerId ++ ("/" ++ "base.js")))

set_option maxRecDepth 8192 in
/-- C5 counterexample: for a player URL whose sanitized id has 121 > 120
characters, the source keeps the id as the cache key, while the claim says
the key falls back to the SHA-256 digest of the URL (which always has 64
characters); the two disagree. -/
theorem cacheKey_length_cap_counterexample :
    (sanitizeKey (extractPlayerId longPlayerUrl)).length = 121
    ∧ cacheKeyRaw hexStub true longPlayerUrl = longPlayerId
    ∧ specRegionIgnoringKey hexStub longPlayerUrl = hexStub longPlayerUrl
    ∧ cacheKeyRaw hexStub true longPlayerUrl ≠ specRegionIgnoringKey hexStub longPlayerUrl := by
  decide

theorem parseURL_not_slash (s : String) (u : URLRec) (h : parseURL s = some u) :
    listPrefix "/".toList s.toList = false := by
  cases hs : s.toList with
  | nil => simp [show "/".toList = ['/'] from rfl, listPrefix]
  | cons c t =>
    by_cases hca : c.isAlpha = true
    · simp only [show "/".toList = ['/'] from rfl, listPrefix]
      have hne : ('/' : Char) ≠ c := by
        intro he
        rw [← he] at hca
        exact absurd hca (by decide)
      simp [hne]
    · exfalso
      simp only [parseURL, hs, List.takeWhile_cons] at h
      rw [if_neg hca] at h
      simp at h

/-- C6 (amended): `validateAndNormalizePlayerUrl` returns normally exactly
when the input is a relative path beginning with `/s/player/` (rewritten
onto the `https://www.youtube.com` host) or a parseable absolute URL — of
any scheme, not only https — whose hostname is `youtube.com`,
`www.youtube.com` or `m.youtube.com` (returned unchanged); every other
input throws a validation error. -/
theorem validate_ok_characterization (s : String) :
    ((∃ r, validateAndNormalizePlayerUrl s = Except.ok r) ↔
      (listPrefix "/s/player/".toList s.toList = true ∨
        ∃ u, parseURL s = some u ∧ ALLOWED_HOSTNAMES.contains u.host = true))
    ∧ (listPrefix "/s/player/".toList s.toList = true →
        validateAndNormalizePlayerUrl s = Except.ok ("https://www.youtube.com" ++ s))
    ∧ (∀ u, parseURL s = some u → ALLOWED_HOSTNAMES.contains u.host = true →
        validateAndNormalizePlayerUrl s = Except.ok s) := by
  have hsp : listPrefix "/s/player/".toList s.toList = true →
      listPrefix "/".toList s.toList = true := by
    intro h
    rw [show "/s/player/".toList =
      '/' :: ('s' :: '/' :: 'p' :: 'l' :: 'a' :: 'y' :: 'e' :: 'r' :: ['/']) from by decide] at h
    have := listPrefix_trans_head _ _ _ h
    rw [show "/".toList = ['/'] from rfl]
    exact this
  unfold validateAndNormalizePlayerUrl
  by_cases h1 : listPrefix "/".toList s.toList = true
  · rw [if_pos h1]
    by_cases h2 : listPrefix "/s/player/".toList s.toList = true
    · rw [if_pos h2]
      refine ⟨⟨fun _ => Or.inl h2, fun _ => ⟨_, rfl⟩⟩, fun _ => rfl, ?_⟩
      intro u hu _
      exact absurd (parseURL_not_slash s u hu)
        (fun hf => by rw [hf] at h1; exact Bool.noConfusion h1)
    · rw [if_neg h2]
      refine ⟨⟨?_, ?_⟩, fun hx => absurd hx h2, ?_⟩
      · rintro ⟨r, hr⟩
        exact absurd hr (by simp)
      · rintro (hx | ⟨u, hu, _⟩)
        · exact absurd hx h2
        · exact absurd (parseURL_not_slash s u hu)
            (fun hf => by rw [hf] at h1; exact Bool.noConfusion h1)
      · intro u hu _
        exact absurd (parseURL_not_slash s u hu)
          (fun hf => by rw [hf] at h1; exact Bool.noConfusion h1)
  · rw [if_neg h1]
    cases hp : parseURL s with
    | some u =>
      simp only [hp]
      by_cases hc : ALLOWED_HOSTNAMES.contains u.host = true
      · rw [if_pos hc]
        refine ⟨⟨fun _ => Or.inr ⟨u, rfl, hc⟩, fun _ => ⟨_, rfl⟩⟩, ?_, ?_⟩
        · intro hx
          exact absurd (hsp hx) h1
        · intro u' hu' _
          rfl
      · rw [if_neg hc]
        refine ⟨⟨?_, ?_⟩, ?_, ?_⟩
        · rintro ⟨r, hr⟩
          exact absurd hr (by simp)
        · rintro (hx | ⟨u', hu', hc'⟩)
          · exact absurd (hsp hx) h1
          · cases hu'
            exact absurd hc' hc
        · intro hx
          exact absurd (hsp hx) h1
        · intro u' hu' hc'
          cases hu'
          exact absurd hc' hc
    | none =>
      simp only [hp]
      refine ⟨⟨?_, ?_⟩, ?_, ?_⟩
      · rintro ⟨r, hr⟩
        exact absurd hr (by simp)
      · rintro (hx | ⟨u', hu', _⟩)
        · exact absurd (hsp hx) h1
        · cases hu'
      · intro hx
        exact absurd (hsp hx) h1
      · intro u' hu' _
        cases hu'

theorem validate_ok_characterization_witness :
    validateAndNormalizePlayerUrl "/s/player/a" =
      Except.ok ("https://www.youtube.com" ++ "/s/player/a") :=
  (validate_ok_characterization "/s/player/a").2.1 (by decide)

/-- C6 counterexample: an `http://` (non-https) player URL with an allowed
host is accepted and returned unchanged, contradicting the claim that every
non-https URL causes a thrown validation error. -/
theorem validate_accepts_http_scheme :
    validateAndNormalizePlayerUrl "http://youtube.com/s/player/ab/base.js" =
      Except.ok "http://youtube.com/s/player/ab/base.js" := by
  rfl

/-! ## src/playerCache.ts : the miss path of `getPlayerFilePath`

The function's effects (`Deno.stat`, `Deno.utime`, `fetch`,
`Deno.writeTextFile`) are modelled as an event trace over an explicit
file-system map.  The source never calls `Deno.makeTempFile`/`makeTempDir`
or `Deno.rename`; those events exist in the alphabet so their absence is
expressible. -/

inductive FsEvt
  | statEvt (p : String)
  | touchEvt (p : String)
  | fetchEvt (u : String)
  | writeFileEvt (p : String)
  | renameEvt (src dst : String)
  | makeTempEvt
  | removeEvt (p : String)
deriving DecidableEq, Repr

def isRenameEvt : FsEvt → Bool
  | FsEvt.renameEvt _ _ => true
  | _ => false

def isMakeTempEvt : FsEvt → Bool
  | FsEvt.makeTempEvt => true
  | _ => false

def fsSet (fs : String → Option String) (p v : String) : String → Option String :=
  fun q => if q = p then some v else fs q

/-- The cache directory (`join(getCachePrefix(), "player_cache")`); its
environment-dependent prefix is irrelevant to the claims. -/
def CACHE_DIR : String := "player_cache"

/-- `join(CACHE_DIR, `${safeKey}.js`)` for a player URL. -/
def playerFilePathOf (sha256hex : String → String) (ignoreRegion : Bool)
    (playerUrl : String) : String :=
  CACHE_DIR ++ "/" ++ cacheFileName sha256hex ignoreRegion playerUrl

structure CacheRun where
  result : Except String String
  fs : String → Option String
  evts : List FsEvt

/-- Shallow embedding of one `getPlayerFilePath` call
(src/playerCache.ts:44-99).  `fetchOk` models `response.ok`; `body` the
fetched text.  On a hit the mtime is touched; on a miss the body is written
directly to the final path — the source has no temp file, no rename, and no
in-flight-fetch map. -/
def getPlayerFilePathRun (sha256hex : String → String) (ignoreRegion : Bool)
    (fetchOk : Bool) (statusText body : String)
    (fs : String → Option String) (playerUrl : String) : CacheRun :=
  let filePath := playerFilePathOf sha256hex ignoreRegion playerUrl
  match fs filePath with
  | some _ =>
    { result := Except.ok filePath
      fs := fs
      evts := [FsEvt.statEvt filePath, FsEvt.touchEvt filePath] }
  | none =>
    if fetchOk then
      { result := Except.ok filePath
        fs := fsSet fs filePath body
        evts := [FsEvt.statEvt filePath, FsEvt.fetchEvt playerUrl,
                 FsEvt.writeFileEvt filePath] }
    else
      { result := Except.error
          ("Failed to fetch player from " ++ playerUrl ++ ": " ++ statusText)
        fs := fs
        evts := [FsEvt.statEvt filePath, FsEvt.fetchEvt playerUrl] }

/-- C4 (amended): on a player-file cache miss the fetched body is written
directly (in place) to the final path; no temp file is created, no atomic
rename happens, and there is no temp directory to remove. -/
theorem playerCache_miss_path (sha256hex : String → String) (ignoreRegion fetchOk2 : Bool)
    (fs : String → Option String) (playerUrl statusText body : String)
    (hmiss : fs (playerFilePathOf sha256hex ignoreRegion playerUrl) = none) :
    (getPlayerFilePathRun sha256hex ignoreRegion true statusText body fs playerUrl).result
      = Except.ok (playerFilePathOf sha256hex ignoreRegion playerUrl)
    ∧ (getPlayerFilePathRun sha256hex ignoreRegion true statusText body fs playerUrl).fs
        (playerFilePathOf sha256hex ignoreRegion playerUrl) = some body
    ∧ FsEvt.writeFileEvt (playerFilePathOf sha256hex ignoreRegion playerUrl)
        ∈ (getPlayerFilePathRun sha256hex ignoreRegion true statusText body fs playerUrl).evts
    ∧ ((getPlayerFilePathRun sha256hex ignoreRegion fetchOk2 statusText body fs playerUrl).evts.all
        (fun e => !isRenameEvt e && !isMakeTempEvt e)) = true := by
  refine ⟨?_, ?_, ?_, ?_⟩
  · simp [getPlayerFilePathRun, hmiss]
  · simp [getPlayerFilePathRun, hmiss, fsSet]
  · simp [getPlayerFilePathRun, hmiss]
  · cases fetchOk2 <;> simp [getPlayerFilePathRun, hmiss, isRenameEvt, isMakeTempEvt]

theorem playerCache_miss_path_witness :
    (getPlayerFilePathRun hexStub false true "OK" "BODY" (fun _ => none) "https://www.youtube.com/p").fs
        (playerFilePathOf hexStub false "https://www.youtube.com/p") = some "BODY" :=
  (playerCache_miss_path hexStub false true (fun _ => none)
    "https://www.youtube.com/p" "OK" "BODY" rfl).2.1

set_option maxRecDepth 4096 in
/-- C4 counterexample: a concrete cold-cache run writes the fetched body
directly to the final cache path (`writeFileEvt` on the final path appears
in the trace) and performs no rename and creates no temp file — the claimed
temp-file-plus-atomic-rename protocol does not exist in the source. -/
theorem playerCache_no_atomic_rename_counterexample :
    (getPlayerFilePathRun hexStub false true "OK" "BODY" (fun _ => none)
        "https://www.youtube.com/p").evts
      = [FsEvt.statEvt (playerFilePathOf hexStub false "https://www.youtube.com/p"),
         FsEvt.fetchEvt "https://www.youtube.com/p",
         FsEvt.writeFileEvt (playerFilePathOf hexStub false "https://www.youtube.com/p")]
    ∧ ((getPlayerFilePathRun hexStub false true "OK" "BODY" (fun _ => none)
        "https://www.youtube.com/p").evts.all
          (fun e => !isRenameEvt e && !isMakeTempEvt e)) = true := by
  decide

/-! ## C1: no single-flight in `getPlayerFilePath`

Two concurrent calls for the same URL are modelled as two program counters
over a shared state; each `await` in the source is a yield point.  A call
observes hit/miss at its `stat` step, increments the fetch counter at its
`fetch` step and publishes the file at its `write` step. -/

inductive C1PC
  | start | missObserved | fetched | done
deriving DecidableEq, Repr

structure C1State where
  file : Option String
  fetchCount : Nat
deriving Repr

def c1Step (body : String) : C1PC × C1State → C1PC × C1State
  | (C1PC.start, s) =>
    match s.file with
    | some _ => (C1PC.done, s)
    | none => (C1PC.missObserved, s)
  | (C1PC.missObserved, s) => (C1PC.fetched, { s with fetchCount := s.fetchCount + 1 })
  | (C1PC.fetched, s) => (C1PC.done, { s with file := some body })
  | (C1PC.done, s) => (C1PC.done, s)

def c1Run (body : String) : List Bool → C1PC × C1PC × C1State → C1PC × C1PC × C1State
  | [], st => st
  | b :: rest, (pa, pb, s) =>
    if b then
      let r := c1Step body (pa, s)
      c1Run body rest (r.1, pb, r.2)
    else
      let r := c1Step body (pb, s)
      c1Run body rest (pa, r.1, r.2)

def c1Init : C1PC × C1PC × C1State := (C1PC.start, C1PC.start, ⟨none, 0⟩)

/-- The fully sequential schedule: call A runs to completion, then call B. -/
def seqSched : List Bool := [true, true, true, false]

/-- The overlapping schedule: both calls pass their `stat` step before
either writes. -/
def concSched : List Bool := [true, false, true, true, false, false]

/-- C1 (amended): `getPlayerFilePath` has no in-flight download coalescing:
each call that observes a cold-cache miss performs its own upstream fetch.
Sequentially the second call hits the written file and exactly one fetch
happens, but two calls that interleave past their stat steps fetch twice;
both still return successfully. -/
theorem playerCache_no_single_flight (body : String) :
    (c1Run body seqSched c1Init).2.2.fetchCount = 1
    ∧ (c1Run body seqSched c1Init).1 = C1PC.done
    ∧ (c1Run body seqSched c1Init).2.1 = C1PC.done
    ∧ (c1Run body concSched c1Init).2.2.fetchCount = 2
    ∧ (c1Run body concSched c1Init).1 = C1PC.done
    ∧ (c1Run body concSched c1Init).2.1 = C1PC.done := by
  refine ⟨rfl, rfl, rfl, rfl, rfl, rfl⟩

/-- C1 counterexample: with a cold cache and two concurrent calls for the
same URL whose stat steps both precede the first write, the upstream fetch
is performed twice, not exactly once as the claim states. -/
theorem playerCache_two_concurrent_fetches_counterexample :
    (c1Run "BODY" concSched c1Init).2.2.fetchCount = 2
    ∧ (c1Run "BODY" concSched c1Init).2.2.fetchCount ≠ 1 := by
  decide

/-! ## src/stsCache.ts + src/handlers/getSts.ts

The sts cache is an `InstrumentedLRU` over `@std/cache`'s `LruCache`
(`Map`-backed, insertion order = recency order, most recent last): `get`
promotes, `set` re-inserts and evicts the least-recent entry on overflow.
The size-gauge emission has no behavioural effect and is not modelled. -/

structure LRU where
  entries : List (String × String)
  cap : Nat
deriving DecidableEq, Repr

/-- `LruCache.get`: on a hit the entry is promoted to most-recent. -/
def lruGet (c : LRU) (k : String) : Option String × LRU :=
  match c.entries.find? (fun p => p.1 = k) with
  | none => (none, c)
  | some p =>
    (some p.2, { c with entries := c.entries.filter (fun q => q.1 ≠ k) ++ [(k, p.2)] })

/-- `LruCache.set`: replace/insert as most-recent, evict the least-recent
entry when the size exceeds the capacity. -/
def lruSet (c : LRU) (k v : String) : LRU :=
  let es := c.entries.filter (fun q => q.1 ≠ k) ++ [(k, v)]
  { c with entries := if c.cap < es.length then es.drop 1 else es }

/-- Digits capture of the sts regex: at least one digit or no match. -/
def stsDigits (ds : List Char) : Option String :=
  if ds = [] then none else some (String.mk ds)

/-- One alternative of `/(signatureTimestamp|sts):(\d+)/` anchored at the
head of `cs`: the key (colon included), then at least one digit. -/
def matchStsKeyAt (key : List Char) (cs : List Char) : Option String :=
  if listPrefix key cs then
    stsDigits ((cs.drop key.length).takeWhile Char.isDigit)
  else none

/-- Leftmost match of `/(signatureTimestamp|sts):(\d+)/`, returning the
digits (capture group 2): at each position try `signatureTimestamp:` then
`sts:`, else advance. -/
def stsScan : List Char → Option String
  | [] => none
  | c :: cs =>
    match matchStsKeyAt "signatureTimestamp:".toList (c :: cs) with
    | some d => some d
    | none =>
      match matchStsKeyAt "sts:".toList (c :: cs) with
      | some d => some d
      | none => stsScan cs

def firstStsMatch (s : String) : Option String := stsScan s.toList

/-- Responses of `handleGetSts`: `hit` is 200 with `X-Cache-Hit: true`,
`miss` is 200 with `X-Cache-Hit: false`, `stsNotFound` is the 404, and
`readFailed` models `Deno.readTextFile` throwing. -/
inductive StsResult
  | hit (sts : String)
  | miss (sts : String)
  | stsNotFound
  | readFailed
deriving DecidableEq, Repr

/-- The miss path of `handleGetSts`: read the player file, match the regex,
insert and return the digits or 404. -/
def handleGetStsMiss (readFile : String → Option String) (playerFilePath : String)
    (c : LRU) : StsResult × LRU :=
  match readFile playerFilePath with
  | none => (StsResult.readFailed, c)
  | some content =>
    match firstStsMatch content with
    | some sts => (StsResult.miss sts, lruSet c playerFilePath sts)
    | none => (StsResult.stsNotFound, c)

/-- Shallow embedding of `handleGetSts` (src/handlers/getSts.ts), already
given the resolved player file path.  `if (cachedSts)` is a JS truthiness
test, so a cached empty string falls through to the miss path. -/
def handleGetSts (readFile : String → Option String) (playerFilePath : String)
    (cache : LRU) : StsResult × LRU :=
  match lruGet cache playerFilePath with
  | (some s, c1) =>
    if s = "" then handleGetStsMiss readFile playerFilePath c1
    else (StsResult.hit s, c1)
  | (none, c1) => handleGetStsMiss readFile playerFilePath c1

theorem stsDigits_ne_empty (ds : List Char) (s : String)
    (h : stsDigits ds = some s) : s ≠ "" := by
  unfold stsDigits at h
  split at h
  · exact absurd h (by simp)
  · rename_i hds
    intro he
    apply hds
    have hinj := Option.some.inj h
    rw [← hinj] at he
    exact congrArg String.data he

theorem matchStsKeyAt_ne_empty (key cs : List Char) (s : String)
    (h : matchStsKeyAt key cs = some s) : s ≠ "" := by
  unfold matchStsKeyAt at h
  split at h
  · exact stsDigits_ne_empty _ _ h
  · exact absurd h (by simp)

theorem firstStsMatch_ne_empty (content sts : String)
    (h : firstStsMatch content = some sts) : sts ≠ "" := by
  unfold firstStsMatch at h
  generalize content.toList = cs at h
  induction cs with
  | nil => simp [stsScan] at h
  | cons c cs ih =>
    simp only [stsScan] at h
    cases h1 : matchStsKeyAt "signatureTimestamp:".toList (c :: cs) with
    | some d =>
      rw [h1] at h
      cases h
      exact matchStsKeyAt_ne_empty _ _ _ h1
    | none =>
      rw [h1] at h
      cases h2 : matchStsKeyAt "sts:".toList (c :: cs) with
      | some d =>
        rw [h2] at h
        cases h
        exact matchStsKeyAt_ne_empty _ _ _ h2
      | none =>
        rw [h2] at h
        exact ih h

theorem find?_key_append (l : List (String × String)) (k v : String)
    (hl : ∀ p ∈ l, p.1 ≠ k) :
    (l ++ [(k, v)]).find? (fun p => p.1 = k) = some (k, v) := by
  induction l with
  | nil => simp [List.find?]
  | cons q t ih =>
    have hq : ¬ (q.1 = k) := hl q (by simp)
    rw [List.cons_append, List.find?_cons_of_neg _ (by simpa using hq)]
    exact ih (fun p hp => hl p (by simp [hp]))

theorem lruGet_after_set (c : LRU) (k v : String) (hcap : 0 < c.cap) :
    (lruGet (lruSet c k v) k).1 = some v := by
  have hfil : ∀ p ∈ c.entries.filter (fun q => q.1 ≠ k), p.1 ≠ k := by
    intro p hp
    have := (List.mem_filter.mp hp).2
    simpa using this
  have hfind : ((lruSet c k v).entries).find? (fun p => p.1 = k) = some (k, v) := by
    unfold lruSet
    cases hf : c.entries.filter (fun q => q.1 ≠ k) with
    | nil =>
      simp only [hf, List.nil_append]
      rw [if_neg (by simp only [List.length_cons, List.length_nil]; omega)]
      simp [List.find?]
    | cons q t =>
      simp only [hf, List.cons_append]
      by_cases hlen : c.cap < (q :: (t ++ [(k, v)])).length
      · rw [if_pos hlen, List.drop_one, List.tail_cons]
        exact find?_key_append t k v (fun p hp => hfil p (by rw [hf]; simp [hp]))
      · rw [if_neg hlen]
        exact find?_key_append (q :: t) k v (fun p hp => hfil p (by rw [hf]; exact hp))
  unfold lruGet
  rw [hfind]

/-- C7: on an sts-cache hit the cached string is returned as a 200 with
`X-Cache-Hit: true`; on a miss the player file is matched against
`/(signatureTimestamp|sts):(\d+)/` — 404 exactly when there is no match,
and on a match the digits are cached and returned with
`X-Cache-Hit: false`, so an immediate repeat returns the identical string
with `X-Cache-Hit: true`. -/
theorem handleGetSts_spec (readFile : String → Option String)
    (path : String) (cache : LRU) :
    (∀ s c1, lruGet cache path = (some s, c1) → s ≠ "" →
      handleGetSts readFile path cache = (StsResult.hit s, c1))
    ∧ (∀ content c1, readFile path = some content → lruGet cache path = (none, c1) →
      ((handleGetSts readFile path cache).1 = StsResult.stsNotFound ↔
        firstStsMatch content = none))
    ∧ (∀ content sts c1, readFile path = some content →
      lruGet cache path = (none, c1) → firstStsMatch content = some sts →
      handleGetSts readFile path cache = (StsResult.miss sts, lruSet c1 path sts))
    ∧ (∀ content sts c1, readFile path = some content →
      lruGet cache path = (none, c1) → firstStsMatch content = some sts →
      0 < cache.cap → c1.cap = cache.cap →
      (handleGetSts readFile path (handleGetSts readFile path cache).2).1
        = StsResult.hit sts) := by
  refine ⟨?_, ?_, ?_, ?_⟩
  · intro s c1 hg hs
    simp only [handleGetSts, hg]
    rw [if_neg hs]
  · intro content c1 hr hg
    simp only [handleGetSts, hg, handleGetStsMiss, hr]
    cases hm : firstStsMatch content with
    | some sts => simp [hm]
    | none => simp [hm]
  · intro content sts c1 hr hg hm
    simp only [handleGetSts, hg, handleGetStsMiss, hr, hm]
  · intro content sts c1 hr hg hm hcap hc1
    have h1 : handleGetSts readFile path cache = (StsResult.miss sts, lruSet c1 path sts) := by
      simp only [handleGetSts, hg, handleGetStsMiss, hr, hm]
    rw [h1]
    have hcapc1 : 0 < c1.cap := by rw [hc1]; exact hcap
    have hget1 : (lruGet (lruSet c1 path sts) path).1 = some sts :=
      lruGet_after_set c1 path sts hcapc1
    obtain ⟨c2, hc2⟩ : ∃ c2, lruGet (lruSet c1 path sts) path = (some sts, c2) := by
      refine ⟨(lruGet (lruSet c1 path sts) path).2, ?_⟩
      rw [← hget1]
    simp only [handleGetSts, hc2]
    rw [if_neg (firstStsMatch_ne_empty content sts hm)]

theorem handleGetSts_spec_witness :
    (handleGetSts (fun _ => some "var a=1;sts:19834,b") "p.js" ⟨[], 150⟩).1
      = StsResult.miss "19834"
    ∧ (handleGetSts (fun _ => some "var a=1;sts:19834,b") "p.js"
        (handleGetSts (fun _ => some "var a=1;sts:19834,b") "p.js" ⟨[], 150⟩).2).1
      = StsResult.hit "19834" := by
  refine ⟨?_, ?_⟩
  · have := (handleGetSts_spec (fun _ => some "var a=1;sts:19834,b") "p.js" ⟨[], 150⟩).2.2.1
      "var a=1;sts:19834,b" "19834" ⟨[], 150⟩ rfl (by decide) (by decide)
    rw [this]
  · exact (handleGetSts_spec (fun _ => some "var a=1;sts:19834,b") "p.js" ⟨[], 150⟩).2.2.2
      "var a=1;sts:19834,b" "19834" ⟨[], 150⟩ rfl (by decide) (by decide) (by decide) (by decide)

/-! ## src/handlers/resolveUrl.ts

`URLSearchParams` operations on the ordered query list: `get` returns the
first value for a key, `set` overwrites the first entry in place and drops
later duplicates (appending when absent), `delete` removes every entry. -/

def getParam (q : List (String × String)) (k : String) : Option String :=
  (q.find? (fun p => p.1 = k)).map (fun p => p.2)

def getAllParam (q : List (String × String)) (k : String) : List String :=
  (q.filter (fun p => p.1 = k)).map (fun p => p.2)

def deleteParam (q : List (String × String)) (k : String) : List (String × String) :=
  q.filter (fun p => p.1 ≠ k)

def setParam : List (String × String) → String → String → List (String × String)
  | [], k, v => [(k, v)]
  | p :: t, k, v =>
    if p.1 = k then (k, v) :: deleteParam t k
    else p :: setParam t k v

theorem getParam_deleteParam_self (q : List (String × String)) (k : String) :
    getParam (deleteParam q k) k = none := by
  induction q with
  | nil => rfl
  | cons p t ih =>
    by_cases hp : p.1 = k
    · simp only [deleteParam, List.filter_cons] at ih ⊢
      rw [if_neg (by simpa using hp)]
      exact ih
    · simp only [deleteParam, List.filter_cons] at ih ⊢
      rw [if_pos (by simpa using hp)]
      unfold getParam
      rw [List.find?_cons_of_neg _ (by simpa using hp)]
      exact ih

theorem getParam_deleteParam_other (q : List (String × String)) (k k' : String)
    (hk : k' ≠ k) : getParam (deleteParam q k) k' = getParam q k' := by
  induction q with
  | nil => rfl
  | cons p t ih =>
    by_cases hp : p.1 = k
    · simp only [deleteParam, List.filter_cons] at ih ⊢
      rw [if_neg (by simpa using hp)]
      rw [ih]
      unfold getParam
      rw [List.find?_cons_of_neg _ (by simp [hp, hk.symm])]
    · simp only [deleteParam, List.filter_cons] at ih ⊢
      rw [if_pos (by simpa using hp)]
      by_cases hp' : p.1 = k'
      · unfold getParam
        rw [List.find?_cons_of_pos _ (by simpa using hp'),
          List.find?_cons_of_pos _ (by simpa using hp')]
      · unfold getParam
        rw [List.find?_cons_of_neg _ (by simpa using hp'),
          List.find?_cons_of_neg _ (by simpa using hp')]
        exact ih

theorem getParam_setParam_self (q : List (String × String)) (k v : String) :
    getParam (setParam q k v) k = some v := by
  induction q with
  | nil =>
    unfold setParam getParam
    rw [List.find?_cons_of_pos _ (by simp)]
    rfl
  | cons p t ih =>
    by_cases hp : p.1 = k
    · simp only [setParam, if_pos hp]
      unfold getParam
      rw [List.find?_cons_of_pos _ (by simp)]
      rfl
    · simp only [setParam, if_neg hp]
      unfold getParam
      rw [List.find?_cons_of_neg _ (by simpa using hp)]
      exact ih

theorem getParam_setParam_other (q : List (String × String)) (k v k' : String)
    (hk : k' ≠ k) : getParam (setParam q k v) k' = getParam q k' := by
  induction q with
  | nil =>
    unfold setParam getParam
    rw [List.find?_cons_of_neg _ (by simp [hk.symm])]
  | cons p t ih =>
    by_cases hp : p.1 = k
    · simp only [setParam, if_pos hp]
      unfold getParam
      rw [List.find?_cons_of_neg _ (by simp [hk.symm])]
      have h1 := getParam_deleteParam_other t k k' hk
      unfold getParam at h1
      rw [h1]
      rw [List.find?_cons_of_neg _ (by simp [hp, hk.symm])]
    · simp only [setParam, if_neg hp]
      by_cases hp' : p.1 = k'
      · unfold getParam
        rw [List.find?_cons_of_pos _ (by simpa using hp'),
          List.find?_cons_of_pos _ (by simpa using hp')]
      · unfold getParam
        rw [List.find?_cons_of_neg _ (by simpa using hp'),
          List.find?_cons_of_neg _ (by simpa using hp')]
        exact ih

theorem getAllParam_deleteParam_other (q : List (String × String)) (k k' : String)
    (hk : k' ≠ k) : getAllParam (deleteParam q k) k' = getAllParam q k' := by
  induction q with
  | nil => rfl
  | cons p t ih =>
    by_cases hp : p.1 = k
    · simp only [deleteParam, List.filter_cons] at ih ⊢
      rw [if_neg (by simpa using hp)]
      rw [ih]
      unfold getAllParam
      rw [List.filter_cons, if_neg (by simp [hp, hk.symm])]
    · simp only [deleteParam, List.filter_cons] at ih ⊢
      rw [if_pos (by simpa using hp)]
      unfold getAllParam
      rw [List.filter_cons, List.filter_cons]
      by_cases hp' : p.1 = k'
      · rw [if_pos (by simpa using hp'), if_pos (by simpa using hp')]
        simp only [List.map_cons]
        unfold getAllParam at ih
        rw [ih]
      · rw [if_neg (by simpa using hp'), if_neg (by simpa using hp')]
        exact ih

theorem getAllParam_setParam_other (q : List (String × String)) (k v k' : String)
    (hk : k' ≠ k) : getAllParam (setParam q k v) k' = getAllParam q k' := by
  induction q with
  | nil =>
    unfold setParam getAllParam
    rw [List.filter_cons, if_neg (by simp [hk.symm])]
  | cons p t ih =>
    by_cases hp : p.1 = k
    · simp only [setParam, if_pos hp]
      unfold getAllParam
      rw [List.filter_cons, if_neg (by simp [hk.symm])]
      have h1 := getAllParam_deleteParam_other t k k' hk
      unfold getAllParam at h1
      rw [h1]
      rw [List.filter_cons, if_neg (by simp [hp, hk.symm])]
    · simp only [setParam, if_neg hp]
      unfold getAllParam
      rw [List.filter_cons, List.filter_cons]
      by_cases hp' : p.1 = k'
      · rw [if_pos (by simpa using hp'), if_pos (by simpa using hp')]
        simp only [List.map_cons]
        unfold getAllParam at ih
        rw [ih]
      · rw [if_neg (by simpa using hp'), if_neg (by simpa using hp')]
        exact ih

/-- The solver pair from `types.ts` (`n`/`sig`, each possibly absent). -/
structure Solvers where
  n : Option (String → String)
  sig : Option (String → String)

structure ResolveUrlRequest where
  stream_url : String
  encrypted_signature : String
  signature_key : Option String
  n_param : Option String

/-- The error responses of `handleResolveUrl`: 500 no-solvers, the
`new URL` throw, 500 `No signature solver found for this player`, and
400 `n_param not found in request or stream_url`. -/
inductive ResolveErr
  | noSolvers
  | badStreamUrl
  | noSigSolver
  | nParamMissing
deriving DecidableEq, Repr

/-- JS truthiness filter for optional strings: `undefined`/`null`/`""` are
falsy. -/
def jsTruthy : Option String → Option String
  | some s => if s = "" then none else some s
  | none => none

/-- `signature_key || "sig"`. -/
def sigKeyEff (signature_key : Option String) : String :=
  match jsTruthy signature_key with
  | some k => k
  | none => "sig"

/-- `let nParam = nParamFromRequest || null; if (!nParam) nParam =
url.searchParams.get("n")` followed by the `!nParam` requirement test: the
resolved n input, `none` when the handler treats it as missing.  `q` is the
query of the (already sig-rewritten) url object. -/
def resolveNParam (n_param : Option String) (q : List (String × String)) : Option String :=
  match jsTruthy n_param with
  | some v => some v
  | none => jsTruthy (getParam q "n")

/-- The query after the signature branch of `handleResolveUrl`, given that
branch did not error. -/
def sigStepQuery (sv : Solvers) (req : ResolveUrlRequest) (u : URLRec) :
    List (String × String) :=
  if req.encrypted_signature = "" then u.query
  else
    match sv.sig with
    | some f =>
      deleteParam
        (setParam u.query (sigKeyEff req.signature_key) (f req.encrypted_signature)) "s"
    | none => u.query

/-- Shallow embedding of `handleResolveUrl` (src/handlers/resolveUrl.ts):
resolve solvers (given), parse `stream_url`, rewrite the signature onto
`signature_key` (default `sig`) deleting `s`, then resolve and rewrite `n`;
returns the final URL record (its serialization). -/
def handleResolveUrl (solvers : Option Solvers) (req : ResolveUrlRequest) :
    Except ResolveErr URLRec :=
  match solvers with
  | none => Except.error ResolveErr.noSolvers
  | some sv =>
    match parseURL req.stream_url with
    | none => Except.error ResolveErr.badStreamUrl
    | some u =>
      let step1 : Except ResolveErr URLRec :=
        if req.encrypted_signature = "" then Except.ok u
        else
          match sv.sig with
          | none => Except.error ResolveErr.noSigSolver
          | some f =>
            let q1 := deleteParam
              (setParam u.query (sigKeyEff req.signature_key)
                (f req.encrypted_signature)) "s"
            Except.ok { u with query := q1 }
      match step1 with
      | Except.error e => Except.error e
      | Except.ok u1 =>
        match sv.n with
        | none => Except.ok u1
        | some g =>
          match resolveNParam req.n_param u1.query with
          | none => Except.error ResolveErr.nParamMissing
          | some v => Except.ok { u1 with query := setParam u1.query "n" (g v) }

/-- C8 (amended): for every ResolveUrl request with pure solvers and an
effective signature key that is neither `s` nor `n`: a nonempty
`encrypted_signature` requires a sig solver (else `NoSigSolver`) and on
success the result URL's `signature_key` parameter equals
`sigSolver(encrypted_signature)` with `s` absent; when an n solver exists
and the signature branch did not error, the n input resolved from the
request or the (sig-rewritten) URL's `n` parameter is required (else
`NParamMissing`) and on success the result's `n` parameter equals
`nSolver` of it; scheme, host, path and all other query parameters are
preserved. -/
theorem handleResolveUrl_spec (sv : Solvers) (req : ResolveUrlRequest) (u : URLRec)
    (hu : parseURL req.stream_url = some u)
    (hks : sigKeyEff req.signature_key ≠ "s")
    (hkn : sigKeyEff req.signature_key ≠ "n") :
    (req.encrypted_signature ≠ "" → sv.sig = none →
      handleResolveUrl (some sv) req = Except.error ResolveErr.noSigSolver)
    ∧ (∀ u' f, handleResolveUrl (some sv) req = Except.ok u' →
        req.encrypted_signature ≠ "" → sv.sig = some f →
        getParam u'.query (sigKeyEff req.signature_key)
            = some (f req.encrypted_signature)
        ∧ getParam u'.query "s" = none)
    ∧ (∀ g, sv.n = some g →
        (req.encrypted_signature = "" ∨ sv.sig ≠ none) →
        (resolveNParam req.n_param (sigStepQuery sv req u) = none →
          handleResolveUrl (some sv) req = Except.error ResolveErr.nParamMissing)
        ∧ (∀ u' v, handleResolveUrl (some sv) req = Except.ok u' →
            resolveNParam req.n_param (sigStepQuery sv req u) = some v →
            getParam u'.query "n" = some (g v)))
    ∧ (∀ u', handleResolveUrl (some sv) req = Except.ok u' →
        u'.scheme = u.scheme ∧ u'.host = u.host ∧ u'.pathname = u.pathname
        ∧ ∀ k, k ≠ sigKeyEff req.signature_key → k ≠ "s" → k ≠ "n" →
            getAllParam u'.query k = getAllParam u.query k) := by
  by_cases henc : req.encrypted_signature = ""
  · have hq1 : sigStepQuery sv req u = u.query := by
      simp [sigStepQuery, henc]
    cases hn : sv.n with
    | none =>
      have hH : handleResolveUrl (some sv) req = Except.ok u := by
        simp [handleResolveUrl, hu, henc, hn]
      refine ⟨fun he _ => absurd henc he, ?_, ?_, ?_⟩
      · intro u' f _ he _
        exact absurd henc he
      · intro g hg _
        cases hg
      · intro u' hu'
        rw [hH] at hu'
        cases hu'
        exact ⟨rfl, rfl, rfl, fun k _ _ _ => rfl⟩
    | some g =>
      cases hr : resolveNParam req.n_param u.query with
      | none =>
        have hH : handleResolveUrl (some sv) req = Except.error ResolveErr.nParamMissing := by
          simp [handleResolveUrl, hu, henc, hn, hr]
        refine ⟨fun he _ => absurd henc he, ?_, ?_, ?_⟩
        · intro u' f hu'
          rw [hH] at hu'
          cases hu'
        · intro g' hg _
          cases hg
          rw [hq1]
          exact ⟨fun _ => hH, fun u' v hu' _ => (by rw [hH] at hu'; cases hu')⟩
        · intro u' hu'
          rw [hH] at hu'
          cases hu'
      | some v =>
        have hH : handleResolveUrl (some sv) req
            = Except.ok { u with query := setParam u.query "n" (g v) } := by
          simp [handleResolveUrl, hu, henc, hn, hr]
        refine ⟨fun he _ => absurd henc he, ?_, ?_, ?_⟩
        · intro u' f _ he _
          exact absurd henc he
        · intro g' hg _
          cases hg
          rw [hq1]
          refine ⟨fun hr' => (by rw [hr'] at hr; cases hr), ?_⟩
          intro u' v' hu' hr'
          rw [hr'] at hr
          cases hr
          rw [hH] at hu'
          cases hu'
          exact getParam_setParam_self _ _ _
        · intro u' hu'
          rw [hH] at hu'
          cases hu'
          exact ⟨rfl, rfl, rfl, fun k _ _ hkn' => getAllParam_setParam_other _ _ _ _ hkn'⟩
  · cases hsg : sv.sig with
    | none =>
      have hH : handleResolveUrl (some sv) req = Except.error ResolveErr.noSigSolver := by
        simp [handleResolveUrl, hu, henc, hsg]
      refine ⟨fun _ _ => hH, ?_, ?_, ?_⟩
      · intro u' f hu'
        rw [hH] at hu'
        cases hu'
      · intro g hg hor
        rcases hor with ho | ho
        · exact absurd ho henc
        · exact absurd rfl ho
      · intro u' hu'
        rw [hH] at hu'
        cases hu'
    | some f =>
      have hq1 : sigStepQuery sv req u
          = deleteParam (setParam u.query (sigKeyEff req.signature_key)
              (f req.encrypted_signature)) "s" := by
        simp [sigStepQuery, henc, hsg]
      have hsig1 : getParam (sigStepQuery sv req u) (sigKeyEff req.signature_key)
          = some (f req.encrypted_signature) := by
        rw [hq1, getParam_deleteParam_other _ _ _ hks, getParam_setParam_self]
      have hsig2 : getParam (sigStepQuery sv req u) "s" = none := by
        rw [hq1, getParam_deleteParam_self]
      cases hn : sv.n with
      | none =>
        have hH : handleResolveUrl (some sv) req
            = Except.ok { u with query := sigStepQuery sv req u } := by
          simp [handleResolveUrl, hu, henc, hsg, hn, hq1]
        refine ⟨fun _ hs => (by cases hs), ?_, ?_, ?_⟩
        · intro u' f' hu' _ hf'
          cases hf'
          rw [hH] at hu'
          cases hu'
          exact ⟨hsig1, hsig2⟩
        · intro g hg _
          cases hg
        · intro u' hu'
          rw [hH] at hu'
          cases hu'
          refine ⟨rfl, rfl, rfl, fun k hk1 hk2 _ => ?_⟩
          show getAllParam (sigStepQuery sv req u) k = getAllParam u.query k
          rw [hq1, getAllParam_deleteParam_other _ _ _ hk2,
            getAllParam_setParam_other _ _ _ _ hk1]
      | some g =>
        cases hr : resolveNParam req.n_param (sigStepQuery sv req u) with
        | none =>
          have hH : handleResolveUrl (some sv) req
              = Except.error ResolveErr.nParamMissing := by
            have hr' := hr
            rw [hq1] at hr'
            simp [handleResolveUrl, hu, henc, hsg, hn, hr']
          refine ⟨fun _ hs => (by cases hs), ?_, ?_, ?_⟩
          · intro u' f' hu'
            rw [hH] at hu'
            cases hu'
          · intro g' hg _
            cases hg
            exact ⟨fun _ => hH, fun u' v hu' _ => (by rw [hH] at hu'; cases hu')⟩
          · intro u' hu'
            rw [hH] at hu'
            cases hu'
        | some v =>
          have hH : handleResolveUrl (some sv) req
              = Except.ok { u with query := setParam (sigStepQuery sv req u) "n" (g v) } := by
            have hr' := hr
            rw [hq1] at hr'
            simp [handleResolveUrl, hu, henc, hsg, hn, hr', hq1]
          refine ⟨fun _ hs => (by cases hs), ?_, ?_, ?_⟩
          · intro u' f' hu' _ hf'
            cases hf'
            rw [hH] at hu'
            cases hu'
            constructor
            · show getParam (setParam (sigStepQuery sv req u) "n" _) (sigKeyEff req.signature_key)
                = some (f req.encrypted_signature)
              rw [getParam_setParam_other _ _ _ _ hkn]
              exact hsig1
            · show getParam (setParam (sigStepQuery sv req u) "n" _) "s" = none
              rw [getParam_setParam_other _ _ _ _ (by decide)]
              exact hsig2
          · intro g' hg _
            cases hg
            refine ⟨fun hr' => absurd hr' (by simp), ?_⟩
            intro u' v' hu' hr'
            have hv : v = v' := Option.some.inj hr'
            cases hv
            rw [hH] at hu'
            cases hu'
            exact getParam_setParam_self _ _ _
          · intro u' hu'
            rw [hH] at hu'
            cases hu'
            refine ⟨rfl, rfl, rfl, fun k hk1 hk2 hk3 => ?_⟩
            show getAllParam (setParam (sigStepQuery sv req u) "n" _) k = getAllParam u.query k
            rw [getAllParam_setParam_other _ _ _ _ hk3, hq1,
              getAllParam_deleteParam_other _ _ _ hk2,
              getAllParam_setParam_other _ _ _ _ hk1]

/-- Solvers used by the witness: both pure. -/
def wSv : Solvers := ⟨some (fun x => x ++ "!"), some (fun x => x ++ "D")⟩

def wReq : ResolveUrlRequest :=
  ⟨"https://r.example/vi?s=OLD&n=N0&other=1", "OLD", some "sig", none⟩

theorem handleResolveUrl_spec_witness :
    getParam [("n", "N0" ++ "!"), ("other", "1"), ("sig", "OLD" ++ "D")] "sig"
      = some ("OLD" ++ "D")
    ∧ getParam [("n", "N0" ++ "!"), ("other", "1"), ("sig", "OLD" ++ "D")] "s" = none :=
  (handleResolveUrl_spec wSv wReq
      ⟨"https", "r.example", "/vi", [("s", "OLD"), ("n", "N0"), ("other", "1")]⟩
      rfl (by decide) (by decide)).2.1
    ⟨"https", "r.example", "/vi", [("n", "N0" ++ "!"), ("other", "1"), ("sig", "OLD" ++ "D")]⟩
    (fun x => x ++ "D") rfl (by decide) rfl

/-- Solvers for the counterexample: a sig solver only. -/
def cexSv : Solvers := ⟨none, some (fun _ => "DLO")⟩

def cexReq : ResolveUrlRequest :=
  ⟨"https://r.example/vi?s=OLD&n=N0", "OLD", some "s", none⟩

/-- C8 counterexample: with `signature_key = "s"` the handler first sets
`s` to the decrypted value and then deletes the `s` parameter, so the
result URL carries no signature at all — the claim's requirement that the
`signature_key` parameter equal `sigSolver(encrypted_signature)` (here
`"DLO"`) fails at this input. -/
theorem handleResolveUrl_sigkey_s_counterexample :
    handleResolveUrl (some cexSv) cexReq
      = Except.ok ⟨"https", "r.example", "/vi", [("n", "N0")]⟩
    ∧ getParam [("n", "N0")] (sigKeyEff cexReq.signature_key) = none
    ∧ sigKeyEff cexReq.signature_key = "s" := by
  refine ⟨rfl, by decide, by decide⟩

/-! ## src/taskQueueDeque.ts : the two `ArrayTaskQueue` generations

C10 compares the head-indexed, lazily compacting `ArrayTaskQueue`
(taskQueueDeque.ts lines 227-303 of the file) against the plain
JS-array-backed `ArrayTaskQueue` (lines 28-65) under the queue interface
(`push`, `pop`, `shift`, `unshift`, `clear`, `length`).  JS arrays are
lists; `push`/`unshift` return the new length, `pop`/`shift` return
`undefined` on empty. -/

inductive QOp (α : Type)
  | push (xs : List α)
  | pop
  | shift
  | unshift (xs : List α)
  | clear
  | length

inductive QOut (α : Type)
  | num (n : Nat)
  | val (v : Option α)
  | unitOut
deriving DecidableEq, Repr

/-- One operation of the plain array-backed `ArrayTaskQueue`. -/
def plainStep (l : List α) : QOp α → QOut α × List α
  | QOp.push xs => (QOut.num (l ++ xs).length, l ++ xs)
  | QOp.pop => (QOut.val l.getLast?, l.dropLast)
  | QOp.shift => (QOut.val l.head?, l.tail)
  | QOp.unshift xs => (QOut.num (xs ++ l).length, xs ++ l)
  | QOp.clear => (QOut.unitOut, [])
  | QOp.length => (QOut.num l.length, l)

/-- State of the head-indexed `ArrayTaskQueue`: the backing array and the
index of the logical front. -/
structure HQ (α : Type) where
  items : List α
  head : Nat
deriving Repr

def hqLength (q : HQ α) : Nat := q.items.length - q.head

/-- `clear()`: `items.length = 0; head = 0`. -/
def hqClear (_ : HQ α) : HQ α := ⟨[], 0⟩

/-- `push(...items)`: append, report the logical length. -/
def hqPush (q : HQ α) (xs : List α) : QOut α × HQ α :=
  let q' : HQ α := ⟨q.items ++ xs, q.head⟩
  (QOut.num (hqLength q'), q')

/-- `pop()`: guard on empty, take the last backing slot, reset when the
queue became logically empty. -/
def hqPop (q : HQ α) : QOut α × HQ α :=
  if hqLength q = 0 then (QOut.val none, q)
  else
    let v := q.items.getLast?
    let q1 : HQ α := ⟨q.items.dropLast, q.head⟩
    let q2 := if hqLength q1 = 0 then hqClear q1 else q1
    (QOut.val v, q2)

/-- `shift()`: guard on empty, read `items[head]`, bump `head`, reset when
empty, compact when the head slack passes the threshold. -/
def hqShift (q : HQ α) : QOut α × HQ α :=
  if hqLength q = 0 then (QOut.val none, q)
  else
    let v := q.items[q.head]?
    let q1 : HQ α := ⟨q.items, q.head + 1⟩
    let q2 := if hqLength q1 = 0 then hqClear q1 else q1
    let q3 := if 1024 < q2.head ∧ q2.items.length < q2.head * 2
      then ⟨q2.items.drop q2.head, 0⟩ else q2
    (QOut.val v, q3)

/-- `unshift(...items)`: write into the head gap when it is large enough,
else compact and use the native unshift. -/
def hqUnshift (q : HQ α) (xs : List α) : QOut α × HQ α :=
  let k := xs.length
  if k = 0 then (QOut.num (hqLength q), q)
  else if k ≤ q.head then
    let q' : HQ α := ⟨q.items.take (q.head - k) ++ xs ++ q.items.drop q.head, q.head - k⟩
    (QOut.num (hqLength q'), q')
  else
    let q1 : HQ α := if 0 < q.head then ⟨q.items.drop q.head, 0⟩ else q
    let q' : HQ α := ⟨xs ++ q1.items, 0⟩
    (QOut.num (hqLength q'), q')

def hqStep (q : HQ α) : QOp α → QOut α × HQ α
  | QOp.push xs => hqPush q xs
  | QOp.pop => hqPop q
  | QOp.shift => hqShift q
  | QOp.unshift xs => hqUnshift q xs
  | QOp.clear => (QOut.unitOut, hqClear q)
  | QOp.length => (QOut.num (hqLength q), q)

def plainRun : List (QOp α) → List α → List (QOut α)
  | [], _ => []
  | op :: ops, l => (plainStep l op).1 :: plainRun ops (plainStep l op).2

def hqRun : List (QOp α) → HQ α → List (QOut α)
  | [], _ => []
  | op :: ops, q => (hqStep q op).1 :: hqRun ops (hqStep q op).2

/-- The abstraction relation: the backing array past `head` is the plain
queue's contents (and `head` never runs past the array). -/
def QRel (q : HQ α) (l : List α) : Prop :=
  q.head ≤ q.items.length ∧ q.items.drop q.head = l

theorem dropLast_drop_comm (l : List α) (n : Nat) :
    (l.drop n).dropLast = l.dropLast.drop n := by
  by_cases h : n < l.length
  · rw [List.dropLast_eq_take, List.dropLast_eq_take, List.length_drop, List.take_drop]
    congr 2
    omega
  · have h1 : l.drop n = [] := List.drop_eq_nil_of_le (by omega)
    have h2 : l.dropLast.drop n = [] :=
      List.drop_eq_nil_of_le (by rw [List.length_dropLast]; omega)
    rw [h1, h2]
    rfl

theorem getLast?_drop_eq (items : List α) (n : Nat)
    (hne : items.drop n ≠ []) : items.getLast? = (items.drop n).getLast? := by
  conv_lhs => rw [← List.take_append_drop n items]
  exact List.getLast?_append_of_ne_nil _ hne

theorem hqPush_rel (q : HQ α) (l xs : List α) (h : QRel q l) :
    (hqPush q xs).1 = QOut.num (l ++ xs).length ∧ QRel (hqPush q xs).2 (l ++ xs) := by
  obtain ⟨h1, h2⟩ := h
  have hlen : l.length = q.items.length - q.head := by rw [← h2]; simp
  refine ⟨?_, ?_, ?_⟩
  · simp only [hqPush, hqLength, List.length_append]
    congr 1
    omega
  · simp only [hqPush, List.length_append]
    omega
  · simp only [hqPush]
    rw [List.drop_append_eq_append_drop, h2,
      show q.head - q.items.length = 0 by omega, List.drop_zero]

theorem hqPop_rel (q : HQ α) (l : List α) (h : QRel q l) :
    (hqPop q).1 = QOut.val l.getLast? ∧ QRel (hqPop q).2 l.dropLast := by
  obtain ⟨h1, h2⟩ := h
  have hlen : l.length = q.items.length - q.head := by rw [← h2]; simp
  by_cases he : hqLength q = 0
  · have hl : l = [] := List.eq_nil_of_length_eq_zero (by rw [hlen]; exact he)
    subst hl
    simp only [hqPop, if_pos he]
    exact ⟨by simp, h1, h2⟩
  · have hlne : l ≠ [] := by
      intro hx
      apply he
      show q.items.length - q.head = 0
      rw [← hlen, hx]
      rfl
    have hne : q.items.drop q.head ≠ [] := by rw [h2]; exact hlne
    have hv : q.items.getLast? = l.getLast? := by
      rw [getLast?_drop_eq q.items q.head hne, h2]
    have habs : q.items.dropLast.drop q.head = l.dropLast := by
      rw [← dropLast_drop_comm, h2]
    simp only [hqPop, if_neg he, hv]
    refine ⟨by simp, ?_⟩
    by_cases he1 : hqLength (⟨q.items.dropLast, q.head⟩ : HQ α) = 0
    · have hdl : l.dropLast = [] := by
        have hz : l.dropLast.length = 0 := by
          rw [List.length_dropLast, hlen]
          simp only [hqLength, List.length_dropLast] at he1
          omega
        exact List.eq_nil_of_length_eq_zero hz
      simp only [if_pos he1, hqClear, hdl]
      exact ⟨by simp, rfl⟩
    · simp only [if_neg he1]
      refine ⟨?_, habs⟩
      show q.head ≤ q.items.dropLast.length
      simp only [hqLength, List.length_dropLast] at he1
      rw [List.length_dropLast]
      omega

theorem hqShift_rel (q : HQ α) (l : List α) (h : QRel q l) :
    (hqShift q).1 = QOut.val l.head? ∧ QRel (hqShift q).2 l.tail := by
  obtain ⟨h1, h2⟩ := h
  have hlen : l.length = q.items.length - q.head := by rw [← h2]; simp
  by_cases he : hqLength q = 0
  · have hl : l = [] := List.eq_nil_of_length_eq_zero (by rw [hlen]; exact he)
    subst hl
    simp only [hqShift, if_pos he]
    exact ⟨by simp, h1, h2⟩
  · have hheadlt : q.head < q.items.length := by
      simp only [hqLength] at he
      omega
    have hv : q.items[q.head]? = l.head? := by
      conv_lhs => rw [← List.take_append_drop q.head q.items]
      rw [List.getElem?_append_right (by simp only [List.length_take]; omega)]
      rw [show q.head - (q.items.take q.head).length = 0 by
        simp only [List.length_take]
        omega]
      rw [h2, List.head?_eq_getElem?]
    have habs : q.items.drop (q.head + 1) = l.tail := by
      rw [← List.drop_drop, h2, List.drop_one]
    simp only [hqShift, if_neg he, hv]
    refine ⟨by simp, ?_⟩
    by_cases he1 : hqLength (⟨q.items, q.head + 1⟩ : HQ α) = 0
    · have hdl : l.tail = [] := by
        have hz : l.tail.length = 0 := by
          rw [List.length_tail, hlen]
          simp only [hqLength] at he1
          omega
        exact List.eq_nil_of_length_eq_zero hz
      simp only [if_pos he1, hqClear]
      rw [if_neg (by simp)]
      rw [hdl]
      exact ⟨by simp, rfl⟩
    · simp only [if_neg he1]
      by_cases hc : 1024 < (⟨q.items, q.head + 1⟩ : HQ α).head
          ∧ (⟨q.items, q.head + 1⟩ : HQ α).items.length < (⟨q.items, q.head + 1⟩ : HQ α).head * 2
      · rw [if_pos hc]
        exact ⟨by simp, by simpa using habs⟩
      · rw [if_neg hc]
        refine ⟨?_, habs⟩
        show q.head + 1 ≤ q.items.length
        simp only [hqLength] at he1
        omega

theorem hqUnshift_rel (q : HQ α) (l xs : List α) (h : QRel q l) :
    (hqUnshift q xs).1 = QOut.num (xs ++ l).length ∧ QRel (hqUnshift q xs).2 (xs ++ l) := by
  obtain ⟨h1, h2⟩ := h
  have hlen : l.length = q.items.length - q.head := by rw [← h2]; simp
  by_cases hk : xs.length = 0
  · have hxs : xs = [] := List.eq_nil_of_length_eq_zero hk
    subst hxs
    refine ⟨?_, h1, h2⟩
    show (hqUnshift q []).1 = QOut.num (([] : List α) ++ l).length
    simp only [hqUnshift]
    rw [if_pos hk, List.nil_append, hlen]
    rfl
  · by_cases hfast : xs.length ≤ q.head
    · simp only [hqUnshift, if_neg hk, if_pos hfast]
      have htlen : (q.items.take (q.head - xs.length)).length = q.head - xs.length := by
        simp only [List.length_take]
        omega
      refine ⟨?_, ?_, ?_⟩
      · simp only [hqLength, List.length_append, htlen, List.length_drop]
        congr 1
        omega
      · simp only [List.length_append, htlen, List.length_drop]
        omega
      · show ((q.items.take (q.head - xs.length) ++ xs ++ q.items.drop q.head).drop
            (q.head - xs.length)) = xs ++ l
        rw [List.append_assoc, List.drop_append_eq_append_drop,
          List.drop_eq_nil_of_le (le_of_eq htlen), htlen, Nat.sub_self,
          List.drop_zero, List.nil_append, h2]
    · simp only [hqUnshift, if_neg hk, if_neg hfast]
      by_cases hh : 0 < q.head
      · simp only [if_pos hh]
        refine ⟨?_, ?_, ?_⟩
        · simp only [hqLength, List.length_append, List.length_drop, Nat.sub_zero]
          congr 1
          omega
        · simp
        · show (xs ++ q.items.drop q.head).drop 0 = xs ++ l
          rw [List.drop_zero, h2]
      · simp only [if_neg hh]
        have hh0 : q.head = 0 := by omega
        have hitems : q.items = l := by rw [← h2, hh0, List.drop_zero]
        refine ⟨?_, ?_, ?_⟩
        · simp only [hqLength, List.length_append, hitems, Nat.sub_zero]
        · simp
        · show (xs ++ q.items).drop 0 = xs ++ l
          rw [List.drop_zero, hitems]

theorem hqStep_rel (q : HQ α) (l : List α) (op : QOp α) (h : QRel q l) :
    (hqStep q op).1 = (plainStep l op).1 ∧ QRel (hqStep q op).2 (plainStep l op).2 := by
  obtain ⟨h1, h2⟩ := h
  have hlen : l.length = q.items.length - q.head := by rw [← h2]; simp
  cases op with
  | push xs => exact hqPush_rel q l xs ⟨h1, h2⟩
  | pop => exact hqPop_rel q l ⟨h1, h2⟩
  | shift => exact hqShift_rel q l ⟨h1, h2⟩
  | unshift xs => exact hqUnshift_rel q l xs ⟨h1, h2⟩
  | clear => exact ⟨rfl, Nat.le_refl 0, rfl⟩
  | length =>
    refine ⟨?_, h1, h2⟩
    show QOut.num (hqLength q) = QOut.num l.length
    rw [hlen]
    rfl

theorem hqRun_eq_plainRun (ops : List (QOp α)) (q : HQ α) (l : List α)
    (h : QRel q l) : hqRun ops q = plainRun ops l := by
  induction ops generalizing q l with
  | nil => rfl
  | cons op ops ih =>
    obtain ⟨ho, hs⟩ := hqStep_rel q l op h
    simp only [hqRun, plainRun, ho, ih _ _ hs]

/-- C10: the head-indexed, lazily compacting `ArrayTaskQueue` is
observationally equivalent to the plain JS-array-backed queue: every finite
sequence of `push`, `pop`, `shift`, `unshift`, `clear` and `length`
operations run from the empty queue returns identical outputs (values,
reported lengths) in identical order. -/
theorem arrayTaskQueue_equiv (α : Type) (ops : List (QOp α)) :
    hqRun ops ⟨[], 0⟩ = plainRun ops [] :=
  hqRun_eq_plainRun ops ⟨[], 0⟩ [] ⟨Nat.le_refl 0, rfl⟩

/-! ## src/workerPool.ts (the deque-based worker pool)

The pool is embedded as a transition system.  Workers and tasks are `Nat`
ids; `WeakMap`s become functions or association lists; JS `Set`s become
duplicate-free lists with head = newest insertion; the `workers` array and
`idleWorkerStack` are stored with head = JS array end (so JS `push`/`pop`
are `cons`/head).  A `task.resolve`/`task.reject` invocation (always made
through `safeCall`, which swallows exceptions) is recorded in the
append-only `settles` log.  Timers: an in-flight timeout is armed exactly
while the worker has an `inFlightTask` entry (`setInFlight` arms,
`clearInFlight` cancels), so the timeout event is a no-op without an entry;
the recovery timer is the `recoveryTimerArmed` flag.  `queueMicrotask` is
the `refillScheduled` flag: the scheduled pass event fires only while it is
set.  External nondeterminism (worker replies, crashes, `new Worker` or
`postMessage` throwing, `Date.now()`) is carried by the events. -/

/-- The reject reason of each settle site (the `safeCall` labels), plus
`resolved` for `task.resolve`.  `rejFatalFast` and `rejDrain` are the two
`poolInitError` sites. -/
inductive Settle
  | resolved
  | rejRetired
  | rejMaxAge
  | rejTimeout
  | rejCrash
  | rejMsgError
  | rejNonString
  | rejWorkerErr
  | rejPostFailed
  | rejRecovery
  | rejDrain
  | rejFatalFast
deriving DecidableEq, Repr

def MAX_TASK_AGE_MS : Nat := 30 * 60 * 1000
def IN_FLIGHT_TIMEOUT_MS : Nat := 60 * 60 * 1000
def RECOVERY_BACKOFF_BASE_MS : Nat := 25
def RECOVERY_BACKOFF_MAX_MS : Nat := 5000
def RECOVERY_FAILURE_THRESHOLD : Nat := 5

/-- `CONCURRENCY` and `MESSAGES_LIMIT` (environment-derived constants). -/
structure PoolConfig where
  concurrency : Nat
  messagesLimit : Nat
deriving Repr

structure PoolState where
  nextWorkerId : Nat
  workersArr : List Nat
  msgsRemaining : Nat → Nat
  idleStack : List Nat
  idleSet : List Nat
  inFlight : List (Nat × Nat)
  inFlightWorkerSet : List Nat
  retireAfterFlight : List Nat
  queue : List Nat
  enqueuedAt : Nat → Nat
  nextTaskId : Nat
  settles : List (Nat × Settle)
  poolInitError : Option String
  recoveryFailures : Nat
  recoveryBackoffMs : Nat
  recoveryTimerArmed : Bool
  refillScheduled : Bool

/-- JS `Set.add` on a newest-first duplicate-free list. -/
def setAddList (l : List Nat) (x : Nat) : List Nat :=
  if l.contains x then l else x :: l

def ifLookup (l : List (Nat × Nat)) (w : Nat) : Option Nat :=
  (l.find? (fun p => p.1 = w)).map (fun p => p.2)

def ifErase (l : List (Nat × Nat)) (w : Nat) : List (Nat × Nat) :=
  l.filter (fun p => p.1 ≠ w)

def ifSet (l : List (Nat × Nat)) (w t : Nat) : List (Nat × Nat) :=
  (w, t) :: ifErase l w

/-- Number of resolve/reject invocations recorded for task `t`. -/
def settleCount (s : PoolState) (t : Nat) : Nat :=
  (s.settles.filter (fun p => p.1 = t)).length

/-- `t` is still tracked by the pool: queued or assigned to a worker. -/
def trackedB (s : PoolState) (t : Nat) : Bool :=
  s.queue.contains t || s.inFlight.any (fun p => p.2 = t)

/-- Record one `safeCall(task.resolve/reject, ...)` invocation. -/
def settleTask (s : PoolState) (t : Nat) (k : Settle) : PoolState :=
  { s with settles := (t, k) :: s.settles }

/-- `clearIdle`: `idleWorkerSet.delete(worker)`. -/
def clearIdle (s : PoolState) (w : Nat) : PoolState :=
  { s with idleSet := s.idleSet.filter (fun x => x ≠ w) }

/-- `clearInFlight`: cancel the timeout (a timer is armed iff the entry
exists) and delete the record from both trackers. -/
def clearInFlight (s : PoolState) (w : Nat) : Option Nat × PoolState :=
  (ifLookup s.inFlight w,
   { s with inFlight := ifErase s.inFlight w,
            inFlightWorkerSet := s.inFlightWorkerSet.filter (fun x => x ≠ w) })

/-- `removeWorkerFromTracking`: clearIdle + splice out of `workers`. -/
def removeWorkerFromTracking (s : PoolState) (w : Nat) : PoolState :=
  let s1 := clearIdle s w
  { s1 with workersArr := s1.workersArr.erase w }

/-- `retireWorker`: clear in-flight state (rejecting a still-assigned
task), drop tracking, terminate (no model state), clear the quarantine
mark. -/
def retireWorker (s : PoolState) (w : Nat) : PoolState :=
  let r := clearInFlight s w
  let s2 := match r.1 with
    | some t => settleTask r.2 t Settle.rejRetired
    | none => r.2
  let s3 := removeWorkerFromTracking s2 w
  { s3 with retireAfterFlight := s3.retireAfterFlight.filter (fun x => x ≠ w) }

def drainLoop : List Nat → PoolState → PoolState
  | [], s => s
  | t :: ts, s => drainLoop ts (settleTask s t Settle.rejDrain)

/-- `drainAndRejectQueuedTasks`: shift-and-reject until the queue is empty. -/
def drainAndRejectQueuedTasks (s : PoolState) : PoolState :=
  drainLoop s.queue { s with queue := [] }

/-- `scheduleRefillAndDispatch`: fail fast and drain under a latched fatal
error, else coalesce onto one pending microtask via `refillScheduled`. -/
def scheduleRefillAndDispatch (s : PoolState) : PoolState :=
  match s.poolInitError with
  | some _ => drainAndRejectQueuedTasks s
  | none => if s.refillScheduled then s else { s with refillScheduled := true }

def setIdle (s : PoolState) (w : Nat) : PoolState :=
  if s.idleSet.contains w then s
  else { s with idleStack := w :: s.idleStack, idleSet := w :: s.idleSet }

/-- `setInFlight`: track the assignment and arm the in-flight timeout. -/
def setInFlight (s : PoolState) (w t : Nat) : PoolState :=
  { s with inFlightWorkerSet := setAddList s.inFlightWorkerSet w,
           inFlight := ifSet s.inFlight w t }

def setMsgs (s : PoolState) (w v : Nat) : PoolState :=
  { s with msgsRemaining := fun x => if x = w then v else s.msgsRemaining x }

/-- `releaseWorker(worker, overrideSchedule)`: quarantined workers retire,
workers with budget go back to idle, exhausted ones retire and force a
refill; then keep the pool scheduled. -/
def releaseWorker (cfg : PoolConfig) (overrideSchedule : Bool) (s : PoolState)
    (w : Nat) : PoolState :=
  let schedule0 := s.workersArr.length < cfg.concurrency
  let r : PoolState × Bool :=
    if s.retireAfterFlight.contains w then
      (retireWorker (setMsgs s w 0) w, schedule0)
    else if 0 < s.msgsRemaining w then
      (setIdle s w, schedule0)
    else
      (retireWorker s w, true)
  if overrideSchedule then r.1
  else if r.2 ∨ 0 < r.1.queue.length then scheduleRefillAndDispatch r.1 else r.1

theorem retireWorker_idleStack (s : PoolState) (w : Nat) :
    (retireWorker s w).idleStack = s.idleStack := by
  simp only [retireWorker, removeWorkerFromTracking, clearIdle, clearInFlight, settleTask]
  cases h : ifLookup s.inFlight w <;> simp [h]

theorem releaseWorker_true_idleStack (cfg : PoolConfig) (s : PoolState) (w : Nat)
    (hm : s.msgsRemaining w = 0) :
    (releaseWorker cfg true s w).idleStack = s.idleStack := by
  simp only [releaseWorker, if_true]
  split
  · show (retireWorker (setMsgs s w 0) w).idleStack = s.idleStack
    rw [retireWorker_idleStack]
    rfl
  · split
    · omega
    · show (retireWorker s w).idleStack = s.idleStack
      rw [retireWorker_idleStack]

/-- `takeIdleWorker`'s loop, with fuel `|idleWorkerStack|`: each iteration
pops exactly one stack slot (skipped workers never push), so the fuel is
exact and the definition implements the unbounded `while`. -/
def takeIdleAux (cfg : PoolConfig) : Nat → PoolState → Option Nat × PoolState
  | 0, s =>
    if s.workersArr.length < cfg.concurrency
    then (none, scheduleRefillAndDispatch s)
    else (none, s)
  | fuel + 1, s =>
    match s.idleStack with
    | [] =>
      if s.workersArr.length < cfg.concurrency
      then (none, scheduleRefillAndDispatch s)
      else (none, s)
    | w :: rest =>
      let s1 := { s with idleStack := rest }
      if s1.idleSet.contains w then
        if s1.msgsRemaining w = 0 ∨ s1.retireAfterFlight.contains w then
          takeIdleAux cfg fuel (releaseWorker cfg true (setMsgs s1 w 0) w)
        else (some w, clearIdle s1 w)
      else takeIdleAux cfg fuel s1

def takeIdleWorker (cfg : PoolConfig) (s : PoolState) : Option Nat × PoolState :=
  takeIdleAux cfg s.idleStack.length s

/-- One dispatched `postMessage` may throw; the event carries which workers
fail.  Fuel is `|taskQueue|`: each iteration shifts exactly one task and no
branch re-queues, so the fuel is exact and this implements `dispatch`'s
`while`.  The `[]` inner case is unreachable: the queue can shrink under
`takeIdleWorker` only through `drainAndRejectQueuedTasks`, which requires a
latched `poolInitError` (never set, see the C3 theorem). -/
def dispatchAux (cfg : PoolConfig) (now : Nat) (postFail : Nat → Bool) :
    Nat → PoolState → PoolState
  | 0, s => s
  | fuel + 1, s =>
    if 0 < s.queue.length then
      match takeIdleWorker cfg s with
      | (none, s1) => s1
      | (some w, s1) =>
        match s1.queue with
        | [] => s1
        | t :: qrest =>
          let s2 := { s1 with queue := qrest }
          if (s2.enqueuedAt t : Int) < (now : Int) - (MAX_TASK_AGE_MS : Int) then
            let s3 := settleTask s2 t Settle.rejMaxAge
            dispatchAux cfg now postFail fuel (releaseWorker cfg false s3 w)
          else
            let s3 := setMsgs s2 w (s2.msgsRemaining w - 1)
            let s4 := setInFlight s3 w t
            if postFail w then
              let s5 := setMsgs s4 w 0
              let r := clearInFlight s5 w
              let s6 := match r.1 with
                | some tf => settleTask r.2 tf Settle.rejPostFailed
                | none => r.2
              dispatchAux cfg now postFail fuel (releaseWorker cfg false s6 w)
            else
              dispatchAux cfg now postFail fuel s4
    else s

def dispatch (cfg : PoolConfig) (now : Nat) (postFail : Nat → Bool)
    (s : PoolState) : PoolState :=
  dispatchAux cfg now postFail s.queue.length s

/-- `createWorker`: fresh worker id with a locked message budget
(`messagesLimit` is per-worker immutable; the pool always passes
`MESSAGES_LIMIT`).  `attachPermanentHandlers` is the event alphabet. -/
def createWorker (cfg : PoolConfig) (s : PoolState) : Nat × PoolState :=
  (s.nextWorkerId,
   { s with nextWorkerId := s.nextWorkerId + 1,
            msgsRemaining := fun x =>
              if x = s.nextWorkerId then cfg.messagesLimit else s.msgsRemaining x })

/-- `fillWorkers`: spawn until `|workers| = CONCURRENCY`.  `spawnBudget`
models `new Worker` throwing after that many successful constructions
(`none` = never throws); the returned flag is the thrown exception.  Fuel
is the worker deficit: every iteration grows `workers` by one, so the fuel
is exact and this implements the unbounded `while`. -/
def fillWorkersAux (cfg : PoolConfig) : Nat → Option Nat → PoolState → PoolState × Bool
  | 0, _, s => (s, false)
  | fuel + 1, budget, s =>
    if s.workersArr.length < cfg.concurrency then
      match budget with
      | some 0 => (s, true)
      | _ =>
        let r := createWorker cfg s
        let s2 := { r.2 with workersArr := r.1 :: r.2.workersArr }
        let s3 := setIdle s2 r.1
        fillWorkersAux cfg fuel (budget.map (fun b => b - 1)) s3
    else (s, false)

def fillWorkers (cfg : PoolConfig) (budget : Option Nat) (s : PoolState) :
    PoolState × Bool :=
  fillWorkersAux cfg (cfg.concurrency - s.workersArr.length) budget s

/-- The quarantine loop of the recovery path: drain `workers` (pop = head
here), zero every budget, mark `retireAfterFlight`; in-flight workers join
`inFlightWorker`, the rest are collected for immediate retirement. -/
def quarantineLoop : List Nat → PoolState → List Nat → List Nat →
    PoolState × List Nat × List Nat
  | [], s, quar, retIm => (s, quar, retIm)
  | w :: ws, s, quar, retIm =>
    let s1 := setMsgs s w 0
    let s2 := { s1 with retireAfterFlight := setAddList s1.retireAfterFlight w }
    if (ifLookup s2.inFlight w).isSome then
      quarantineLoop ws
        { s2 with inFlightWorkerSet := setAddList s2.inFlightWorkerSet w }
        (quar ++ [w]) retIm
    else
      quarantineLoop ws s2 (quar ++ [w]) (retIm ++ [w])

/-- The idle-stack drain of the recovery path: pop every stack slot,
collecting the live idle workers for immediate retirement. -/
def idleDrainLoop : List Nat → PoolState → List Nat → PoolState × List Nat
  | [], s, retIm => (s, retIm)
  | w :: ws, s, retIm =>
    if s.idleSet.contains w then
      idleDrainLoop ws (clearIdle s w) (if retIm.contains w then retIm else retIm ++ [w])
    else idleDrainLoop ws s retIm

def retireList : List Nat → PoolState → PoolState
  | [], s => s
  | w :: ws, s => retireList ws (retireWorker s w)

/-- The recovery consistency check over a snapshot of `inFlightWorker`:
any in-flight worker that was not quarantined is rejected and retired. -/
def anomalyLoop (quarSet : List Nat) : List Nat → PoolState → PoolState
  | [], s => s
  | w :: ws, s =>
    if quarSet.contains w then anomalyLoop quarSet ws s
    else
      let r := clearInFlight s w
      let s2 := match r.1 with
        | some t => settleTask r.2 t Settle.rejRecovery
        | none => r.2
      anomalyLoop quarSet ws (retireWorker s2 w)

/-- The `catch` block of the scheduled pass (`scheduleRefillAndDispatch`'s
microtask): bounded recovery.  The `poolInitError` latch block below the
consistency check is commented out in the source (a TODO), so it is absent
here; the pass ends by arming the backoff timer. -/
def recoveryBlock (s : PoolState) : PoolState :=
  let s1 := { s with recoveryFailures := s.recoveryFailures + 1 }
  let ws := s1.workersArr
  let r1 := quarantineLoop ws { s1 with workersArr := [] } [] []
  let r2 := idleDrainLoop r1.1.idleStack { r1.1 with idleStack := [] } r1.2.2
  let s2 := { r2.1 with idleSet := [] }
  let s3 := retireList r2.2 s2
  let s4 := anomalyLoop r1.2.1 s3.inFlightWorkerSet s3
  { s4 with recoveryBackoffMs := min (s4.recoveryBackoffMs * 2) RECOVERY_BACKOFF_MAX_MS,
            recoveryTimerArmed := true }

/-- The body of the `queueMicrotask` in `scheduleRefillAndDispatch`;
applicable only while `refillScheduled` is set (a microtask is pending).
On success: fill, opportunistically compact the idle stack, dispatch, and
reset the failure counters.  On a spawn failure: the recovery block. -/
def runScheduledPass (cfg : PoolConfig) (now : Nat) (spawnBudget : Option Nat)
    (postFail : Nat → Bool) (s : PoolState) : PoolState :=
  if s.refillScheduled = false then s
  else
    let s0 := { s with refillScheduled := false }
    if s0.recoveryTimerArmed then s0
    else
      let r := fillWorkers cfg spawnBudget s0
      if r.2 then recoveryBlock r.1
      else
        let s2 := if 16 + r.1.idleSet.length * 2 < r.1.idleStack.length
          then { r.1 with idleStack := r.1.idleSet } else r.1
        let s3 := dispatch cfg now postFail s2
        { s3 with recoveryFailures := 0, recoveryBackoffMs := RECOVERY_BACKOFF_BASE_MS }

/-- The permanent `message` handler: stray messages retire the worker;
otherwise clear the in-flight record first, settle the task according to
the payload, and release the worker. -/
def workerMessage (cfg : PoolConfig) (w : Nat) (success isString : Bool)
    (s : PoolState) : PoolState :=
  match ifLookup s.inFlight w with
  | none =>
    scheduleRefillAndDispatch (retireWorker (setMsgs s w 0) w)
  | some t =>
    let s1 := (clearInFlight s w).2
    let s2 :=
      if success then
        if isString then settleTask s1 t Settle.resolved
        else settleTask (setMsgs s1 w 0) t Settle.rejNonString
      else settleTask (setMsgs s1 w 0) t Settle.rejWorkerErr
    releaseWorker cfg false s2 w

/-- The permanent `messageerror` handler. -/
def workerMessageError (s : PoolState) (w : Nat) : PoolState :=
  match ifLookup s.inFlight w with
  | some t =>
    let s1 := settleTask (clearInFlight s w).2 t Settle.rejMsgError
    scheduleRefillAndDispatch (retireWorker s1 w)
  | none => scheduleRefillAndDispatch (retireWorker s w)

/-- The permanent `error` (crash) handler. -/
def workerCrash (s : PoolState) (w : Nat) : PoolState :=
  match ifLookup s.inFlight w with
  | some t =>
    let s1 := settleTask (clearInFlight s w).2 t Settle.rejCrash
    scheduleRefillAndDispatch (retireWorker s1 w)
  | none => scheduleRefillAndDispatch (retireWorker s w)

/-- The in-flight timeout callback; armed exactly while the worker has an
in-flight record (cancelled by `clearInFlight`), so it is a no-op
otherwise. -/
def timeoutFire (s : PoolState) (w : Nat) : PoolState :=
  match ifLookup s.inFlight w with
  | none => s
  | some t =>
    let s1 := settleTask (clearInFlight s w).2 t Settle.rejTimeout
    scheduleRefillAndDispatch (retireWorker s1 w)

/-- The recovery backoff timer callback. -/
def recoveryTimerFire (s : PoolState) : PoolState :=
  if s.recoveryTimerArmed
  then scheduleRefillAndDispatch { s with recoveryTimerArmed := false }
  else s

/-- `execInPool`: fail fast under a latched fatal error (rejecting the new
promise without queueing), else stamp `enqueuedAt`, enqueue and schedule. -/
def execInPool (now : Nat) (s : PoolState) : PoolState :=
  match s.poolInitError with
  | some _ =>
    { settleTask s s.nextTaskId Settle.rejFatalFast with nextTaskId := s.nextTaskId + 1 }
  | none =>
    let t := s.nextTaskId
    scheduleRefillAndDispatch
      { s with nextTaskId := t + 1,
               enqueuedAt := fun x => if x = t then now else s.enqueuedAt x,
               queue := s.queue ++ [t] }

/-- `initializeWorkers()` (the eager boot-time fill; a spawn failure there
crashes the process, so only the state reached before the throw is kept). -/
def initializeWorkers (cfg : PoolConfig) (spawnBudget : Option Nat)
    (s : PoolState) : PoolState :=
  (fillWorkers cfg spawnBudget s).1

/-- External stimuli: task submissions, the scheduled microtask (with the
spawn/postMessage failures it will encounter), worker replies and faults,
and timer callbacks. -/
inductive PoolEvt
  | submit (now : Nat)
  | passRun (now : Nat) (spawnBudget : Option Nat) (postFail : Nat → Bool)
  | message (w : Nat) (success isString : Bool)
  | messageError (w : Nat)
  | crash (w : Nat)
  | timeout (w : Nat)
  | recoveryFire
  | initWorkers (spawnBudget : Option Nat)

def poolStep (cfg : PoolConfig) (s : PoolState) : PoolEvt → PoolState
  | PoolEvt.submit now => execInPool now s
  | PoolEvt.passRun now b pf => runScheduledPass cfg now b pf s
  | PoolEvt.message w ok str => workerMessage cfg w ok str s
  | PoolEvt.messageError w => workerMessageError s w
  | PoolEvt.crash w => workerCrash s w
  | PoolEvt.timeout w => timeoutFire s w
  | PoolEvt.recoveryFire => recoveryTimerFire s
  | PoolEvt.initWorkers b => initializeWorkers cfg b s

def poolRun (cfg : PoolConfig) : List PoolEvt → PoolState → PoolState
  | [], s => s
  | e :: es, s => poolRun cfg es (poolStep cfg s e)

/-- The module-initialization state of the pool. -/
def initPool : PoolState :=
  { nextWorkerId := 0, workersArr := [], msgsRemaining := fun _ => 0,
    idleStack := [], idleSet := [], inFlight := [], inFlightWorkerSet := [],
    retireAfterFlight := [], queue := [], enqueuedAt := fun _ => 0,
    nextTaskId := 0, settles := [], poolInitError := none,
    recoveryFailures := 0, recoveryBackoffMs := RECOVERY_BACKOFF_BASE_MS,
    recoveryTimerArmed := false, refillScheduled := false }

/-! ### Pool invariant machinery -/

theorem mem_ifErase {l : List (Nat × Nat)} {w : Nat} {p : Nat × Nat} :
    p ∈ ifErase l w ↔ p ∈ l ∧ p.1 ≠ w := by
  simp [ifErase, List.mem_filter]

theorem ifErase_eq_self {l : List (Nat × Nat)} {w : Nat}
    (h : ∀ p ∈ l, p.1 ≠ w) : ifErase l w = l := by
  unfold ifErase
  rw [List.filter_eq_self]
  intro p hp
  simpa using h p hp

theorem ifLookup_eq_none {l : List (Nat × Nat)} {w : Nat} :
    ifLookup l w = none ↔ ∀ p ∈ l, p.1 ≠ w := by
  simp [ifLookup, List.find?_eq_none]

theorem ifLookup_mem {l : List (Nat × Nat)} {w t : Nat}
    (h : ifLookup l w = some t) : (w, t) ∈ l := by
  unfold ifLookup at h
  cases hf : l.find? (fun p => p.1 = w) with
  | none => rw [hf] at h; cases h
  | some p =>
    rw [hf] at h
    have hm := List.mem_of_find?_eq_some hf
    have hp := List.find?_some hf
    have h1 : p.1 = w := by simpa using hp
    have h2 : p.2 = t := by simpa using h
    have : p = (w, t) := by
      cases p
      simp_all
    rwa [this] at hm

theorem eq_of_keysNodup {l : List (Nat × Nat)}
    (hnd : (l.map Prod.fst).Nodup) {p q : Nat × Nat}
    (hp : p ∈ l) (hq : q ∈ l) (h : p.1 = q.1) : p = q :=
  List.inj_on_of_nodup_map hnd hp hq h

theorem eq_of_valsNodup {l : List (Nat × Nat)}
    (hnd : (l.map Prod.snd).Nodup) {p q : Nat × Nat}
    (hp : p ∈ l) (hq : q ∈ l) (h : p.2 = q.2) : p = q :=
  List.inj_on_of_nodup_map hnd hp hq h

theorem keysNodup_ifErase {l : List (Nat × Nat)} {w : Nat}
    (h : (l.map Prod.fst).Nodup) : ((ifErase l w).map Prod.fst).Nodup :=
  ((List.filter_sublist l).map Prod.fst).nodup h

theorem valsNodup_ifErase {l : List (Nat × Nat)} {w : Nat}
    (h : (l.map Prod.snd).Nodup) : ((ifErase l w).map Prod.snd).Nodup :=
  ((List.filter_sublist l).map Prod.snd).nodup h

/-- The pool's structural invariant, holding at every reachable state:
no fatal latch, duplicate-free queue and in-flight trackers, queue and
in-flight tasks disjoint and below the id counter, idle workers never
in flight, every created task settled exactly once or still tracked,
uncreated tasks never settled, and no fatal-fast or drain settlement
ever recorded. -/
structure PoolInv (s : PoolState) : Prop where
  nf : s.poolInitError = none
  qNd : s.queue.Nodup
  keysNd : (s.inFlight.map Prod.fst).Nodup
  valsNd : (s.inFlight.map Prod.snd).Nodup
  qifD : ∀ t ∈ s.queue, ∀ p ∈ s.inFlight, p.2 ≠ t
  qLt : ∀ t ∈ s.queue, t < s.nextTaskId
  ifLt : ∀ p ∈ s.inFlight, p.2 < s.nextTaskId
  ifWLt : ∀ p ∈ s.inFlight, p.1 < s.nextWorkerId
  idD : ∀ w ∈ s.idleSet, ∀ p ∈ s.inFlight, p.1 ≠ w
  idLt : ∀ w ∈ s.idleSet, w < s.nextWorkerId
  once : ∀ t, t < s.nextTaskId →
    settleCount s t + (if trackedB s t then 1 else 0) = 1
  fresh : ∀ t, s.nextTaskId ≤ t → settleCount s t = 0
  noBad : ∀ p ∈ s.settles,
    p.2 ≠ Settle.rejFatalFast ∧ p.2 ≠ Settle.rejDrain

theorem settleCount_congr {s s' : PoolState} (h : s'.settles = s.settles)
    (t : Nat) : settleCount s' t = settleCount s t := by
  simp [settleCount, h]

theorem trackedB_congr {s s' : PoolState} (hq : s'.queue = s.queue)
    (hif : s'.inFlight = s.inFlight) (t : Nat) :
    trackedB s' t = trackedB s t := by
  simp [trackedB, hq, hif]

/-- Invariant transport along a state change that keeps the queue,
in-flight map, settle log, id counters and fatal latch, and only shrinks
the idle set. -/
theorem PoolInv.transport {s s' : PoolState} (h : PoolInv s)
    (hq : s'.queue = s.queue) (hif : s'.inFlight = s.inFlight)
    (hse : s'.settles = s.settles) (hid : ∀ w ∈ s'.idleSet, w ∈ s.idleSet)
    (hnt : s'.nextTaskId = s.nextTaskId) (hnw : s.nextWorkerId ≤ s'.nextWorkerId)
    (hpe : s'.poolInitError = s.poolInitError) : PoolInv s' := by
  refine ⟨?_, ?_, ?_, ?_, ?_, ?_, ?_, ?_, ?_, ?_, ?_, ?_, ?_⟩
  · rw [hpe, h.nf]
  · rw [hq]; exact h.qNd
  · rw [hif]; exact h.keysNd
  · rw [hif]; exact h.valsNd
  · rw [hq, hif]; exact h.qifD
  · rw [hq, hnt]; exact h.qLt
  · rw [hif, hnt]; exact h.ifLt
  · rw [hif]; exact fun p hp => lt_of_lt_of_le (h.ifWLt p hp) hnw
  · rw [hif]; exact fun w hw => h.idD w (hid w hw)
  · exact fun w hw => lt_of_lt_of_le (h.idLt w (hid w hw)) hnw
  · intro t ht
    rw [hnt] at ht
    rw [settleCount_congr hse, trackedB_congr hq hif]
    exact h.once t ht
  · intro t ht
    rw [hnt] at ht
    rw [settleCount_congr hse]
    exact h.fresh t ht
  · rw [hse]; exact h.noBad

theorem settleCount_settleTask (s : PoolState) (t : Nat) (k : Settle) (x : Nat) :
    settleCount (settleTask s t k) x = (if x = t then 1 else 0) + settleCount s x := by
  unfold settleCount settleTask
  simp only [List.filter_cons]
  by_cases h : t = x <;> simp [h, eq_comm] <;> omega

theorem trackedB_iff {s : PoolState} {t : Nat} :
    trackedB s t = true ↔ t ∈ s.queue ∨ ∃ p ∈ s.inFlight, p.2 = t := by
  simp [trackedB, List.any_eq_true]

/-- `clearInFlight` on a worker with no record changes nothing the
invariant depends on. -/
theorem clear_none_inv {s : PoolState} {w : Nat}
    (ht : ifLookup s.inFlight w = none) (h : PoolInv s) :
    PoolInv (clearInFlight s w).2 := by
  refine h.transport rfl ?_ rfl (fun x hx => hx) rfl le_rfl rfl
  show ifErase s.inFlight w = s.inFlight
  exact ifErase_eq_self (ifLookup_eq_none.mp ht)

/-- The exactly-once workhorse: clearing a worker with in-flight task `t`
and then settling `t` (with any non-fatal, non-drain reason) preserves
the invariant — the task moves from tracked to settled in one step. -/
theorem settle_after_clear_inv {s : PoolState} {w t : Nat} {k : Settle}
    (ht : ifLookup s.inFlight w = some t)
    (hk : k ≠ Settle.rejFatalFast ∧ k ≠ Settle.rejDrain)
    (h : PoolInv s) : PoolInv (settleTask (clearInFlight s w).2 t k) := by
  have hmem : (w, t) ∈ s.inFlight := ifLookup_mem ht
  have hcnt : ∀ x, settleCount (settleTask (clearInFlight s w).2 t k) x
      = (if x = t then 1 else 0) + settleCount s x := by
    intro x
    rw [settleCount_settleTask]
    rfl
  refine ⟨h.nf, h.qNd, keysNodup_ifErase h.keysNd, valsNodup_ifErase h.valsNd,
    ?_, h.qLt, ?_, ?_, ?_, h.idLt, ?_, ?_, ?_⟩
  · intro tq htq p hp
    exact h.qifD tq htq p (mem_ifErase.mp hp).1
  · intro p hp
    exact h.ifLt p (mem_ifErase.mp hp).1
  · intro p hp
    exact h.ifWLt p (mem_ifErase.mp hp).1
  · intro w' hw' p hp
    exact h.idD w' hw' p (mem_ifErase.mp hp).1
  · intro x hx
    rw [hcnt x]
    by_cases he : x = t
    · subst he
      have hnotq : x ∉ s.queue := fun hq => h.qifD x hq (w, x) hmem rfl
      have htr : trackedB s x = true := trackedB_iff.mpr (Or.inr ⟨(w, x), hmem, rfl⟩)
      have h0 : settleCount s x = 0 := by
        have hh := h.once x hx
        rw [htr] at hh
        simp at hh
        omega
      have htr2 : trackedB (settleTask (clearInFlight s w).2 x k) x = false := by
        rw [Bool.eq_false_iff]
        intro hc
        rcases trackedB_iff.mp hc with hq | ⟨p, hp, hpt⟩
        · exact hnotq hq
        · have hp' := mem_ifErase.mp hp
          have : p = (w, x) := eq_of_valsNodup h.valsNd hp'.1 hmem hpt
          exact hp'.2 (by rw [this])
      rw [htr2, h0]
      simp
    · rw [if_neg he]
      have hcand : trackedB (settleTask (clearInFlight s w).2 t k) x = trackedB s x := by
        cases hb : trackedB s x with
        | true =>
          rcases trackedB_iff.mp hb with hq | ⟨p, hp, hpt⟩
          · exact trackedB_iff.mpr (Or.inl hq)
          · have hpw : p.1 ≠ w := by
              intro hw1
              have : p = (w, t) := eq_of_keysNodup h.keysNd hp hmem hw1
              exact he (by rw [← hpt, this])
            exact trackedB_iff.mpr (Or.inr ⟨p, mem_ifErase.mpr ⟨hp, hpw⟩, hpt⟩)
        | false =>
          rw [Bool.eq_false_iff] at hb ⊢
          intro hc
          apply hb
          rcases trackedB_iff.mp hc with hq | ⟨p, hp, hpt⟩
          · exact trackedB_iff.mpr (Or.inl hq)
          · exact trackedB_iff.mpr (Or.inr ⟨p, (mem_ifErase.mp hp).1, hpt⟩)
      rw [hcand]
      have hh := h.once x hx
      cases htr : trackedB s x <;> rw [htr] at hh <;> simp at hh ⊢ <;> omega
  · intro x hx
    have hx' : s.nextTaskId ≤ x := hx
    have hxt : x ≠ t := by
      have := h.ifLt (w, t) hmem
      omega
    rw [hcnt x, if_neg hxt, h.fresh x hx']
  · intro p hp
    rcases List.mem_cons.mp hp with rfl | hp'
    · exact hk
    · exact h.noBad p hp'

theorem setMsgs_inv {s : PoolState} {w v : Nat} (h : PoolInv s) :
    PoolInv (setMsgs s w v) :=
  h.transport rfl rfl rfl (fun _ hx => hx) rfl le_rfl rfl

theorem clearIdle_inv {s : PoolState} {w : Nat} (h : PoolInv s) :
    PoolInv (clearIdle s w) :=
  h.transport rfl rfl rfl (fun x hx => (List.mem_filter.mp hx).1) rfl le_rfl rfl

/-- With no latched fatal error, scheduling is just the coalescing flag. -/
theorem scheduleRefill_eq {s : PoolState} (h : s.poolInitError = none) :
    scheduleRefillAndDispatch s =
      if s.refillScheduled then s else { s with refillScheduled := true } := by
  simp only [scheduleRefillAndDispatch, h]

theorem scheduleRefill_inv {s : PoolState} (h : PoolInv s) :
    PoolInv (scheduleRefillAndDispatch s) := by
  rw [scheduleRefill_eq h.nf]
  split
  · exact h
  · exact h.transport rfl rfl rfl (fun _ hx => hx) rfl le_rfl rfl

theorem setIdle_inv {s : PoolState} {w : Nat} (h : PoolInv s)
    (hw : ∀ p ∈ s.inFlight, p.1 ≠ w) (hwn : w < s.nextWorkerId) :
    PoolInv (setIdle s w) := by
  unfold setIdle
  split
  · exact h
  · refine ⟨h.nf, h.qNd, h.keysNd, h.valsNd, h.qifD, h.qLt, h.ifLt, h.ifWLt,
      ?_, ?_, h.once, h.fresh, h.noBad⟩
    · intro w' hw' p hp
      rcases List.mem_cons.mp hw' with rfl | hw''
      · exact hw p hp
      · exact h.idD w' hw'' p hp
    · intro w' hw'
      rcases List.mem_cons.mp hw' with rfl | hw''
      · exact hwn
      · exact h.idLt w' hw'' 

/-- The tail of `retireWorker` after the in-flight settlement: tracking
removal, termination, and the quarantine-mark clear. -/
def retireTail (s : PoolState) (w : Nat) : PoolState :=
  let s3 := removeWorkerFromTracking s w
  { s3 with retireAfterFlight := s3.retireAfterFlight.filter (fun x => x ≠ w) }

theorem retireTail_inv {s : PoolState} {w : Nat} (h : PoolInv s) :
    PoolInv (retireTail s w) :=
  h.transport rfl rfl rfl (fun x hx => (List.mem_filter.mp hx).1) rfl le_rfl rfl

theorem retireWorker_eq_some {s : PoolState} {w t : Nat}
    (hl : ifLookup s.inFlight w = some t) :
    retireWorker s w
      = retireTail (settleTask (clearInFlight s w).2 t Settle.rejRetired) w := by
  simp only [retireWorker, retireTail, clearInFlight, hl]

theorem retireWorker_eq_none {s : PoolState} {w : Nat}
    (hl : ifLookup s.inFlight w = none) :
    retireWorker s w = retireTail (clearInFlight s w).2 w := by
  simp only [retireWorker, retireTail, clearInFlight, hl]

theorem retireWorker_inv {s : PoolState} {w : Nat} (h : PoolInv s) :
    PoolInv (retireWorker s w) := by
  cases hl : ifLookup s.inFlight w with
  | none =>
    rw [retireWorker_eq_none hl]
    exact retireTail_inv (clear_none_inv hl h)
  | some t =>
    rw [retireWorker_eq_some hl]
    exact retireTail_inv (settle_after_clear_inv hl (by simp) h)

theorem releaseWorker_inv {cfg : PoolConfig} {b : Bool} {s : PoolState} {w : Nat}
    (h : PoolInv s) (hw : ∀ p ∈ s.inFlight, p.1 ≠ w) (hwn : w < s.nextWorkerId) :
    PoolInv (releaseWorker cfg b s w) := by
  simp only [releaseWorker]
  split
  · split
    · exact retireWorker_inv (setMsgs_inv h)
    · split
      · exact setIdle_inv h hw hwn
      · exact retireWorker_inv h
  · split
    · split
      · exact scheduleRefill_inv (retireWorker_inv (setMsgs_inv h))
      · exact retireWorker_inv (setMsgs_inv h)
    · split
      · split
        · exact scheduleRefill_inv (setIdle_inv h hw hwn)
        · exact setIdle_inv h hw hwn
      · split
        · exact scheduleRefill_inv (retireWorker_inv h)
        · exact retireWorker_inv h

/-- With an exhausted budget the idle branch is unreachable, so no
side condition on the in-flight map is needed. -/
theorem releaseWorker_msgs0_inv {cfg : PoolConfig} {b : Bool} {s : PoolState}
    {w : Nat} (h : PoolInv s) (h0 : s.msgsRemaining w = 0) :
    PoolInv (releaseWorker cfg b s w) := by
  simp only [releaseWorker]
  split
  · split
    · exact retireWorker_inv (setMsgs_inv h)
    · split
      · omega
      · exact retireWorker_inv h
  · split
    · split
      · exact scheduleRefill_inv (retireWorker_inv (setMsgs_inv h))
      · exact retireWorker_inv (setMsgs_inv h)
    · split
      · omega
      · split
        · exact scheduleRefill_inv (retireWorker_inv h)
        · exact retireWorker_inv h

theorem contains_mem {l : List Nat} {x : Nat} (h : l.contains x = true) :
    x ∈ l := by
  simpa using h

/-- `takeIdleWorker`'s loop preserves the invariant, and a returned worker
is never a key of the in-flight map and is below the id counter. -/
theorem takeIdleAux_inv (cfg : PoolConfig) :
    ∀ (fuel : Nat) (s : PoolState), PoolInv s →
      PoolInv (takeIdleAux cfg fuel s).2 ∧
      (∀ w, (takeIdleAux cfg fuel s).1 = some w →
        (∀ p ∈ (takeIdleAux cfg fuel s).2.inFlight, p.1 ≠ w) ∧
          w < (takeIdleAux cfg fuel s).2.nextWorkerId ∧
          w ∉ (takeIdleAux cfg fuel s).2.idleSet)
  | 0, s, h => by
    simp only [takeIdleAux]
    split
    · exact ⟨scheduleRefill_inv h, fun w hw => Option.noConfusion hw⟩
    · exact ⟨h, fun w hw => Option.noConfusion hw⟩
  | fuel + 1, s, h => by
    cases hst : s.idleStack with
    | nil =>
      simp only [takeIdleAux, hst]
      split
      · exact ⟨scheduleRefill_inv h, fun w hw => Option.noConfusion hw⟩
      · exact ⟨h, fun w hw => Option.noConfusion hw⟩
    | cons w rest =>
      simp only [takeIdleAux, hst]
      have h1 : PoolInv { s with idleStack := rest } :=
        h.transport rfl rfl rfl (fun _ hx => hx) rfl le_rfl rfl
      split
      · rename_i hc
        split
        · exact takeIdleAux_inv cfg fuel _
            (releaseWorker_msgs0_inv (setMsgs_inv h1) (by simp [setMsgs]))
        · refine ⟨clearIdle_inv h1, ?_⟩
          intro w' hw'
          have hww' : w = w' := by simpa using hw'
          subst hww'
          have hcw : w ∈ ({ s with idleStack := rest } : PoolState).idleSet :=
            contains_mem hc
          refine ⟨fun p hp => h1.idD w hcw p hp, h1.idLt w hcw, ?_⟩
          simp [clearIdle, List.mem_filter]
      · exact takeIdleAux_inv cfg fuel _ h1

theorem takeIdleWorker_inv (cfg : PoolConfig) {s : PoolState} (h : PoolInv s) :
    PoolInv (takeIdleWorker cfg s).2 ∧
      (∀ w, (takeIdleWorker cfg s).1 = some w →
        (∀ p ∈ (takeIdleWorker cfg s).2.inFlight, p.1 ≠ w) ∧
          w < (takeIdleWorker cfg s).2.nextWorkerId ∧
          w ∉ (takeIdleWorker cfg s).2.idleSet) :=
  takeIdleAux_inv cfg s.idleStack.length s h

theorem clearInFlight_fst (s : PoolState) (w : Nat) :
    (clearInFlight s w).1 = ifLookup s.inFlight w := rfl

theorem setMsgs_inFlight (s : PoolState) (w v : Nat) :
    (setMsgs s w v).inFlight = s.inFlight := rfl

theorem setInFlight_inFlight (s : PoolState) (w t : Nat) :
    (setInFlight s w t).inFlight = ifSet s.inFlight w t := rfl

theorem ifLookup_ifSet (l : List (Nat × Nat)) (w t : Nat) :
    ifLookup (ifSet l w t) w = some t := by
  simp [ifLookup, ifSet, List.find?_cons_of_pos]

/-- Shifting the queue head and max-age-rejecting it preserves the
invariant: the task moves from tracked to settled in one step. -/
theorem shift_settle_inv {s1 : PoolState} {t : Nat} {qrest : List Nat}
    (h : PoolInv s1) (hq : s1.queue = t :: qrest) :
    PoolInv (settleTask { s1 with queue := qrest } t Settle.rejMaxAge) := by
  have hnd := h.qNd
  rw [hq] at hnd
  have htq : t ∉ qrest := (List.nodup_cons.mp hnd).1
  have htmem : t ∈ s1.queue := by rw [hq]; exact List.mem_cons_self t qrest
  have htnf : ∀ p ∈ s1.inFlight, p.2 ≠ t := fun p hp => h.qifD t htmem p hp
  have htlt : t < s1.nextTaskId := h.qLt t htmem
  have hsc : ∀ x, settleCount (settleTask { s1 with queue := qrest } t Settle.rejMaxAge) x
      = (if x = t then 1 else 0) + settleCount s1 x := by
    intro x
    rw [settleCount_settleTask]
    rfl
  refine ⟨h.nf, (List.nodup_cons.mp hnd).2, h.keysNd, h.valsNd, ?_, ?_, h.ifLt,
    h.ifWLt, h.idD, h.idLt, ?_, ?_, ?_⟩
  · intro tq htq' p hp
    exact h.qifD tq (by rw [hq]; exact List.mem_cons_of_mem t htq') p hp
  · intro tq htq'
    exact h.qLt tq (by rw [hq]; exact List.mem_cons_of_mem t htq')
  · intro x hx
    have hx' : x < s1.nextTaskId := hx
    rw [hsc x]
    by_cases he : x = t
    · subst he
      have htr : trackedB s1 x = true := trackedB_iff.mpr (Or.inl htmem)
      have h0 : settleCount s1 x = 0 := by
        have hh := h.once x hx'
        rw [htr] at hh
        simp at hh
        omega
      have htr2 : trackedB (settleTask { s1 with queue := qrest } x Settle.rejMaxAge) x
          = false := by
        rw [Bool.eq_false_iff]
        intro hc
        rcases trackedB_iff.mp hc with hq' | ⟨p, hp, hpt⟩
        · exact htq hq'
        · exact htnf p hp hpt
      rw [htr2, h0]
      simp
    · rw [if_neg he]
      have hcand : trackedB (settleTask { s1 with queue := qrest } t Settle.rejMaxAge) x
          = trackedB s1 x := by
        cases hb : trackedB s1 x with
        | true =>
          rcases trackedB_iff.mp hb with hq' | ⟨p, hp, hpt⟩
          · rw [hq] at hq'
            rcases List.mem_cons.mp hq' with rfl | hq''
            · exact absurd rfl he
            · exact trackedB_iff.mpr (Or.inl hq'')
          · exact trackedB_iff.mpr (Or.inr ⟨p, hp, hpt⟩)
        | false =>
          rw [Bool.eq_false_iff] at hb ⊢
          intro hc
          apply hb
          rcases trackedB_iff.mp hc with hq' | ⟨p, hp, hpt⟩
          · exact trackedB_iff.mpr (Or.inl (by rw [hq]; exact List.mem_cons_of_mem t hq'))
          · exact trackedB_iff.mpr (Or.inr ⟨p, hp, hpt⟩)
      rw [hcand]
      have hh := h.once x hx'
      cases htr : trackedB s1 x <;> rw [htr] at hh <;> simp at hh ⊢ <;> omega
  · intro x hx
    have hx' : s1.nextTaskId ≤ x := hx
    rw [hsc x, if_neg (by omega), h.fresh x hx']
  · intro p hp
    rcases List.mem_cons.mp hp with rfl | hp'
    · exact ⟨by simp, by simp⟩
    · exact h.noBad p hp'

/-- Shifting the queue head and assigning it to a non-idle, not-in-flight
worker preserves the invariant: the task stays tracked, moving from queue
to in-flight. -/
theorem shift_setInFlight_inv {s1 : PoolState} {w t v : Nat} {qrest : List Nat}
    (h : PoolInv s1) (hq : s1.queue = t :: qrest)
    (hw : ∀ p ∈ s1.inFlight, p.1 ≠ w) (hwn : w < s1.nextWorkerId)
    (hwid : w ∉ s1.idleSet) :
    PoolInv (setInFlight (setMsgs { s1 with queue := qrest } w v) w t) := by
  have hifs : ifSet s1.inFlight w t = (w, t) :: s1.inFlight := by
    unfold ifSet
    rw [ifErase_eq_self hw]
  have hnd := h.qNd
  rw [hq] at hnd
  have htq : t ∉ qrest := (List.nodup_cons.mp hnd).1
  have htmem : t ∈ s1.queue := by rw [hq]; exact List.mem_cons_self t qrest
  have htnf : ∀ p ∈ s1.inFlight, p.2 ≠ t := fun p hp => h.qifD t htmem p hp
  have htlt : t < s1.nextTaskId := h.qLt t htmem
  have hsc : ∀ x, settleCount (setInFlight (setMsgs { s1 with queue := qrest } w v) w t) x
      = settleCount s1 x := fun _ => rfl
  have hifr : (setInFlight (setMsgs { s1 with queue := qrest } w v) w t).inFlight
      = (w, t) :: s1.inFlight := by
    rw [setInFlight_inFlight, setMsgs_inFlight, ← hifs]
  refine ⟨h.nf, (List.nodup_cons.mp hnd).2, ?_, ?_, ?_, ?_, ?_, ?_, ?_, h.idLt,
    ?_, ?_, h.noBad⟩
  · rw [hifr]
    refine List.nodup_cons.mpr ⟨?_, h.keysNd⟩
    intro hmem
    rcases List.mem_map.mp hmem with ⟨p, hp, hpf⟩
    exact hw p hp hpf
  · rw [hifr]
    refine List.nodup_cons.mpr ⟨?_, h.valsNd⟩
    intro hmem
    rcases List.mem_map.mp hmem with ⟨p, hp, hpf⟩
    exact htnf p hp hpf
  · intro tq htq' p hp
    rw [hifr] at hp
    have htq'' : tq ∈ qrest := htq'
    rcases List.mem_cons.mp hp with rfl | hp'
    · intro hc
      have hct : t = tq := hc
      rw [← hct] at htq''
      exact htq htq''
    · exact h.qifD tq (by rw [hq]; exact List.mem_cons_of_mem t htq'') p hp'
  · intro tq htq'
    exact h.qLt tq (by rw [hq]; exact List.mem_cons_of_mem t htq')
  · intro p hp
    rw [hifr] at hp
    rcases List.mem_cons.mp hp with rfl | hp'
    · exact htlt
    · exact h.ifLt p hp'
  · intro p hp
    rw [hifr] at hp
    rcases List.mem_cons.mp hp with rfl | hp'
    · exact hwn
    · exact h.ifWLt p hp'
  · intro w' hw' p hp
    rw [hifr] at hp
    have hw'' : w' ∈ s1.idleSet := hw'
    rcases List.mem_cons.mp hp with rfl | hp'
    · intro hc
      have hcw2 : w = w' := hc
      rw [← hcw2] at hw''
      exact hwid hw''
    · exact h.idD w' hw'' p hp'
  · intro x hx
    have hx' : x < s1.nextTaskId := hx
    rw [hsc x]
    have hcand : trackedB (setInFlight (setMsgs { s1 with queue := qrest } w v) w t) x
        = trackedB s1 x := by
      cases hb : trackedB s1 x with
      | true =>
        rcases trackedB_iff.mp hb with hq' | ⟨p, hp, hpt⟩
        · rw [hq] at hq'
          rcases List.mem_cons.mp hq' with rfl | hq''
          · exact trackedB_iff.mpr (Or.inr ⟨(w, x), by rw [hifr]; exact List.mem_cons_self _ _, rfl⟩)
          · exact trackedB_iff.mpr (Or.inl hq'')
        · exact trackedB_iff.mpr (Or.inr ⟨p, by rw [hifr]; exact List.mem_cons_of_mem _ hp, hpt⟩)
      | false =>
        rw [Bool.eq_false_iff] at hb ⊢
        intro hc
        apply hb
        rcases trackedB_iff.mp hc with hq' | ⟨p, hp, hpt⟩
        · exact trackedB_iff.mpr (Or.inl (by rw [hq]; exact List.mem_cons_of_mem t hq'))
        · rw [hifr] at hp
          rcases List.mem_cons.mp hp with rfl | hp'
          · have hx2 : t = x := hpt
            exact trackedB_iff.mpr (Or.inl (hx2 ▸ htmem))
          · exact trackedB_iff.mpr (Or.inr ⟨p, hp', hpt⟩)
    rw [hcand]
    exact h.once x hx'
  · intro x hx
    have hx' : s1.nextTaskId ≤ x := hx
    rw [hsc x]
    exact h.fresh x hx'

theorem not_key_ifErase {l : List (Nat × Nat)} {w : Nat} :
    ∀ p ∈ ifErase l w, p.1 ≠ w :=
  fun p hp => (mem_ifErase.mp hp).2

/-- `dispatch`'s loop preserves the invariant across all three per-task
outcomes (max-age rejection, postMessage failure, successful send). -/
theorem dispatchAux_inv (cfg : PoolConfig) (now : Nat) (postFail : Nat → Bool) :
    ∀ (fuel : Nat) (s : PoolState), PoolInv s →
      PoolInv (dispatchAux cfg now postFail fuel s)
  | 0, _, h => h
  | fuel + 1, s, h => by
    have hti := takeIdleWorker_inv cfg (s := s) h
    simp only [dispatchAux]
    split
    · split
      · rename_i s1 heq
        rw [heq] at hti
        exact hti.1
      · rename_i w s1 heq
        rw [heq] at hti
        obtain ⟨h1, hsome⟩ := hti
        obtain ⟨hw, hwn, hwid⟩ := hsome w rfl
        split
      

        · exact h1
        · rename_i t qrest heq2
          split
          · exact dispatchAux_inv cfg now postFail fuel _
              (releaseWorker_inv (shift_settle_inv h1 heq2) hw hwn)
          · split
            · simp only [clearInFlight_fst, setMsgs_inFlight, setInFlight_inFlight,
                ifLookup_ifSet]
              apply dispatchAux_inv cfg now postFail fuel
              apply releaseWorker_inv
              · exact settle_after_clear_inv
                  (by simp only [setMsgs_inFlight, setInFlight_inFlight, ifLookup_ifSet])
                  (by simp)
                  (setMsgs_inv (shift_setInFlight_inv h1 heq2 hw hwn hwid))
              · exact fun p hp => (mem_ifErase.mp hp).2
              · exact hwn
            · exact dispatchAux_inv cfg now postFail fuel _
                (shift_setInFlight_inv h1 heq2 hw hwn hwid)
    · exact h

theorem dispatch_inv {cfg : PoolConfig} {now : Nat} {postFail : Nat → Bool}
    {s : PoolState} (h : PoolInv s) :
    PoolInv (dispatch cfg now postFail s) :=
  dispatchAux_inv cfg now postFail s.queue.length s h

theorem fillWorkersAux_inv (cfg : PoolConfig) :
    ∀ (fuel : Nat) (budget : Option Nat) (s : PoolState), PoolInv s →
      PoolInv (fillWorkersAux cfg fuel budget s).1
  | 0, _, _, h => h
  | fuel + 1, budget, s, h => by
    simp only [fillWorkersAux]
    split
    · split
      · exact h
      · apply fillWorkersAux_inv cfg fuel
        apply setIdle_inv
        · exact h.transport rfl rfl rfl (fun _ hx => hx) rfl (Nat.le_succ _) rfl
        · exact fun p hp => Nat.ne_of_lt (h.ifWLt p hp)
        · exact Nat.lt_succ_self _
    · exact h

theorem fillWorkers_inv {cfg : PoolConfig} {budget : Option Nat}
    {s : PoolState} (h : PoolInv s) : PoolInv (fillWorkers cfg budget s).1 :=
  fillWorkersAux_inv cfg _ budget s h

theorem quarantineLoop_inv :
    ∀ (ws : List Nat) (s : PoolState) (quar retIm : List Nat), PoolInv s →
      PoolInv (quarantineLoop ws s quar retIm).1
  | [], _, _, _, h => h
  | w :: ws, s, quar, retIm, h => by
    simp only [quarantineLoop]
    split
    · exact quarantineLoop_inv ws _ _ _
        (h.transport rfl rfl rfl (fun _ hx => hx) rfl le_rfl rfl)
    · exact quarantineLoop_inv ws _ _ _
        (h.transport rfl rfl rfl (fun _ hx => hx) rfl le_rfl rfl)

theorem idleDrainLoop_inv :
    ∀ (ws : List Nat) (s : PoolState) (retIm : List Nat), PoolInv s →
      PoolInv (idleDrainLoop ws s retIm).1
  | [], _, _, h => h
  | w :: ws, s, retIm, h => by
    simp only [idleDrainLoop]
    split
    · exact idleDrainLoop_inv ws _ _ (clearIdle_inv h)
    · exact idleDrainLoop_inv ws _ _ h

theorem retireList_inv :
    ∀ (ws : List Nat) (s : PoolState), PoolInv s → PoolInv (retireList ws s)
  | [], _, h => h
  | w :: ws, s, h => retireList_inv ws _ (retireWorker_inv h)

theorem anomalyLoop_inv (quarSet : List Nat) :
    ∀ (ws : List Nat) (s : PoolState), PoolInv s →
      PoolInv (anomalyLoop quarSet ws s)
  | [], _, h => h
  | w :: ws, s, h => by
    simp only [anomalyLoop]
    split
    · exact anomalyLoop_inv quarSet ws _ h
    · cases hl : ifLookup s.inFlight w with
      | none =>
        simp only [clearInFlight_fst, hl]
        exact anomalyLoop_inv quarSet ws _
          (retireWorker_inv (clear_none_inv hl h))
      | some t =>
        simp only [clearInFlight_fst, hl]
        exact anomalyLoop_inv quarSet ws _
          (retireWorker_inv (settle_after_clear_inv hl (by simp) h))

theorem recoveryBlock_inv {s : PoolState} (h : PoolInv s) :
    PoolInv (recoveryBlock s) := by
  let s1 : PoolState := { s with recoveryFailures := s.recoveryFailures + 1 }
  let r1 := quarantineLoop s1.workersArr { s1 with workersArr := [] } [] []
  let r2 := idleDrainLoop r1.1.idleStack { r1.1 with idleStack := [] } r1.2.2
  let s2 : PoolState := { r2.1 with idleSet := [] }
  let s3 := retireList r2.2 s2
  let s4 := anomalyLoop r1.2.1 s3.inFlightWorkerSet s3
  have h1 : PoolInv { s1 with workersArr := ([] : List Nat) } :=
    h.transport rfl rfl rfl (fun _ hx => hx) rfl le_rfl rfl
  have h2 : PoolInv r1.1 := quarantineLoop_inv _ _ _ _ h1
  have h3 : PoolInv { r1.1 with idleStack := ([] : List Nat) } :=
    h2.transport rfl rfl rfl (fun _ hx => hx) rfl le_rfl rfl
  have h4 : PoolInv r2.1 := idleDrainLoop_inv _ _ _ h3
  have h5 : PoolInv s2 :=
    h4.transport rfl rfl rfl (fun w hw => absurd hw (List.not_mem_nil w)) rfl le_rfl rfl
  have h6 : PoolInv s3 := retireList_inv _ _ h5
  have h7 : PoolInv s4 := anomalyLoop_inv _ _ _ h6
  exact h7.transport rfl rfl rfl (fun _ hx => hx) rfl le_rfl rfl

theorem runScheduledPass_inv {cfg : PoolConfig} {now : Nat}
    {spawnBudget : Option Nat} {postFail : Nat → Bool} {s : PoolState}
    (h : PoolInv s) : PoolInv (runScheduledPass cfg now spawnBudget postFail s) := by
  simp only [runScheduledPass]
  split
  · exact h
  · have h0 : PoolInv { s with refillScheduled := false } :=
      h.transport rfl rfl rfl (fun _ hx => hx) rfl le_rfl rfl
    split
    · exact h0
    · have hf : PoolInv (fillWorkers cfg spawnBudget { s with refillScheduled := false }).1 :=
        fillWorkers_inv h0
      split
      · exact recoveryBlock_inv hf
      · refine PoolInv.transport (dispatch_inv ?_) rfl rfl rfl (fun _ hx => hx) rfl le_rfl rfl
        split
        · exact hf.transport rfl rfl rfl (fun _ hx => hx) rfl le_rfl rfl
        · exact hf

theorem workerMessage_inv {cfg : PoolConfig} {w : Nat} {success isString : Bool}
    {s : PoolState} (h : PoolInv s) :
    PoolInv (workerMessage cfg w success isString s) := by
  cases hl : ifLookup s.inFlight w with
  | none =>
    simp only [workerMessage, hl]
    exact scheduleRefill_inv (retireWorker_inv (setMsgs_inv h))
  | some t =>
    simp only [workerMessage, hl]
    have hwn : w < s.nextWorkerId := h.ifWLt (w, t) (ifLookup_mem hl)
    split
    · split
      · exact releaseWorker_inv (settle_after_clear_inv hl (by simp) h)
          (fun p hp => (mem_ifErase.mp hp).2) hwn
      · exact releaseWorker_inv (setMsgs_inv (settle_after_clear_inv hl (by simp) h))
          (fun p hp => (mem_ifErase.mp hp).2) hwn
    · exact releaseWorker_inv (setMsgs_inv (settle_after_clear_inv hl (by simp) h))
        (fun p hp => (mem_ifErase.mp hp).2) hwn

theorem workerMessageError_inv {s : PoolState} {w : Nat} (h : PoolInv s) :
    PoolInv (workerMessageError s w) := by
  cases hl : ifLookup s.inFlight w with
  | none =>
    simp only [workerMessageError, hl]
    exact scheduleRefill_inv (retireWorker_inv h)
  | some t =>
    simp only [workerMessageError, hl]
    exact scheduleRefill_inv
      (retireWorker_inv (settle_after_clear_inv hl (by simp) h))

theorem workerCrash_inv {s : PoolState} {w : Nat} (h : PoolInv s) :
    PoolInv (workerCrash s w) := by
  cases hl : ifLookup s.inFlight w with
  | none =>
    simp only [workerCrash, hl]
    exact scheduleRefill_inv (retireWorker_inv h)
  | some t =>
    simp only [workerCrash, hl]
    exact scheduleRefill_inv
      (retireWorker_inv (settle_after_clear_inv hl (by simp) h))

theorem timeoutFire_inv {s : PoolState} {w : Nat} (h : PoolInv s) :
    PoolInv (timeoutFire s w) := by
  cases hl : ifLookup s.inFlight w with
  | none =>
    simp only [timeoutFire, hl]
    exact h
  | some t =>
    simp only [timeoutFire, hl]
    exact scheduleRefill_inv
      (retireWorker_inv (settle_after_clear_inv hl (by simp) h))

theorem recoveryTimerFire_inv {s : PoolState} (h : PoolInv s) :
    PoolInv (recoveryTimerFire s) := by
  unfold recoveryTimerFire
  split
  · exact scheduleRefill_inv (h.transport rfl rfl rfl (fun _ hx => hx) rfl le_rfl rfl)
  · exact h

theorem enqueue_inv {s : PoolState} (h : PoolInv s) (now : Nat) :
    PoolInv { s with
      nextTaskId := s.nextTaskId + 1
      enqueuedAt := (fun x => if x = s.nextTaskId then now else s.enqueuedAt x)
      queue := s.queue ++ [s.nextTaskId] } := by
  refine ⟨h.nf, ?_, h.keysNd, h.valsNd, ?_, ?_, ?_, h.ifWLt, h.idD, h.idLt, ?_, ?_, h.noBad⟩
  · show (s.queue ++ [s.nextTaskId]).Nodup
    rw [List.nodup_append]
    refine ⟨h.qNd, List.nodup_singleton _, ?_⟩
    intro a ha hb
    rw [List.mem_singleton] at hb
    rw [hb] at ha
    exact absurd (h.qLt _ ha) (lt_irrefl _)
  · show ∀ tq ∈ s.queue ++ [s.nextTaskId], ∀ p ∈ s.inFlight, p.2 ≠ tq
    intro tq htq p hp
    rcases List.mem_append.mp htq with htq' | htq'
    · exact h.qifD tq htq' p hp
    · rw [List.mem_singleton] at htq'
      subst htq'
      have := h.ifLt p hp
      omega
  · show ∀ tq ∈ s.queue ++ [s.nextTaskId], tq < s.nextTaskId + 1
    intro tq htq
    rcases List.mem_append.mp htq with htq' | htq'
    · have := h.qLt tq htq'
      omega
    · rw [List.mem_singleton] at htq'
      omega
  · show ∀ p ∈ s.inFlight, p.2 < s.nextTaskId + 1
    intro p hp
    have := h.ifLt p hp
    omega
  · intro x hx
    have hx' : x < s.nextTaskId + 1 := hx
    have hsc : settleCount { s with
        nextTaskId := s.nextTaskId + 1
        enqueuedAt := (fun z => if z = s.nextTaskId then now else s.enqueuedAt z)
        queue := s.queue ++ [s.nextTaskId] } x = settleCount s x := rfl
    rw [hsc]
    by_cases he : x = s.nextTaskId
    · have htr : trackedB { s with
          nextTaskId := s.nextTaskId + 1
          enqueuedAt := (fun z => if z = s.nextTaskId then now else s.enqueuedAt z)
          queue := s.queue ++ [s.nextTaskId] } x = true := by
        refine trackedB_iff.mpr (Or.inl ?_)
        show x ∈ s.queue ++ [s.nextTaskId]
        exact List.mem_append.mpr (Or.inr (List.mem_singleton.mpr he))
      rw [htr, he, h.fresh s.nextTaskId le_rfl]
      simp
    · have hx'' : x < s.nextTaskId := by omega
      have hcand : trackedB { s with
          nextTaskId := s.nextTaskId + 1
          enqueuedAt := (fun z => if z = s.nextTaskId then now else s.enqueuedAt z)
          queue := s.queue ++ [s.nextTaskId] } x = trackedB s x := by
        cases hb : trackedB s x with
        | true =>
          rcases trackedB_iff.mp hb with hq' | ⟨p, hp, hpt⟩
          · exact trackedB_iff.mpr (Or.inl (List.mem_append.mpr (Or.inl hq')))
          · exact trackedB_iff.mpr (Or.inr ⟨p, hp, hpt⟩)
        | false =>
          rw [Bool.eq_false_iff] at hb ⊢
          intro hc
          apply hb
          rcases trackedB_iff.mp hc with hq' | ⟨p, hp, hpt⟩
          · have hq2 : x ∈ s.queue ++ [s.nextTaskId] := hq'
            rcases List.mem_append.mp hq2 with hq'' | hq''
            · exact trackedB_iff.mpr (Or.inl hq'')
            · rw [List.mem_singleton] at hq''
              exact absurd hq'' he
          · exact trackedB_iff.mpr (Or.inr ⟨p, hp, hpt⟩)
      rw [hcand]
      exact h.once x hx''
  · intro x hx
    have hx' : s.nextTaskId + 1 ≤ x := hx
    have hsc : settleCount { s with
        nextTaskId := s.nextTaskId + 1
        enqueuedAt := (fun z => if z = s.nextTaskId then now else s.enqueuedAt z)
        queue := s.queue ++ [s.nextTaskId] } x = settleCount s x := rfl
    rw [hsc]
    exact h.fresh x (by omega)

theorem execInPool_inv {now : Nat} {s : PoolState} (h : PoolInv s) :
    PoolInv (execInPool now s) := by
  unfold execInPool
  split
  · rename_i e heq
    rw [h.nf] at heq
    cases heq
  · exact scheduleRefill_inv (enqueue_inv h now)

theorem initializeWorkers_inv {cfg : PoolConfig} {budget : Option Nat}
    {s : PoolState} (h : PoolInv s) :
    PoolInv (initializeWorkers cfg budget s) :=
  fillWorkers_inv h

theorem poolStep_inv {cfg : PoolConfig} {s : PoolState} (h : PoolInv s) :
    ∀ e : PoolEvt, PoolInv (poolStep cfg s e)
  | PoolEvt.submit now => execInPool_inv h
  | PoolEvt.passRun _ _ _ => runScheduledPass_inv h
  | PoolEvt.message w ok str => workerMessage_inv h
  | PoolEvt.messageError w => workerMessageError_inv h
  | PoolEvt.crash w => workerCrash_inv h
  | PoolEvt.timeout w => timeoutFire_inv h
  | PoolEvt.recoveryFire => recoveryTimerFire_inv h
  | PoolEvt.initWorkers b => initializeWorkers_inv h

theorem poolRun_inv (cfg : PoolConfig) :
    ∀ (es : List PoolEvt) (s : PoolState), PoolInv s →
      PoolInv (poolRun cfg es s)
  | [], _, h => h
  | e :: es, s, h => poolRun_inv cfg es _ (poolStep_inv h e)

theorem poolInv_init : PoolInv initPool := by
  refine ⟨rfl, List.nodup_nil, List.nodup_nil, List.nodup_nil, ?_, ?_, ?_, ?_,
    ?_, ?_, ?_, ?_, ?_⟩ <;>
    simp [initPool, settleCount, trackedB]

/-- C2: for every task created by `execInPool`, exactly one of its
resolve/reject callbacks is invoked, exactly once, across all settlement
paths (worker reply, worker error, non-string payload, crash,
message-deserialization failure, in-flight timeout, queue-age rejection,
postMessage failure, retirement, recovery, drain): at every reachable
pool state a created task has exactly one recorded settlement unless it
is still tracked (queued or in-flight), in which case it has none — so no
task is ever settled twice, and a task that has left both the queue and
the in-flight map has been settled exactly once; ids never issued have no
settlement. -/
theorem pool_task_settled_exactly_once (cfg : PoolConfig) (es : List PoolEvt)
    (t : Nat) :
    (t < (poolRun cfg es initPool).nextTaskId →
      settleCount (poolRun cfg es initPool) t
        + (if trackedB (poolRun cfg es initPool) t then 1 else 0) = 1)
    ∧ ((poolRun cfg es initPool).nextTaskId ≤ t →
        settleCount (poolRun cfg es initPool) t = 0) := by
  have h := poolRun_inv cfg es initPool poolInv_init
  exact ⟨h.once t, h.fresh t⟩

theorem pool_task_settled_exactly_once_witness :
    settleCount (poolRun ⟨1, 2⟩ [PoolEvt.submit 5,
        PoolEvt.passRun 5 none (fun _ => false), PoolEvt.message 0 true true]
        initPool) 0 = 1 ∧
    trackedB (poolRun ⟨1, 2⟩ [PoolEvt.submit 5,
        PoolEvt.passRun 5 none (fun _ => false), PoolEvt.message 0 true true]
        initPool) 0 = false := by
  have h := (pool_task_settled_exactly_once ⟨1, 2⟩ [PoolEvt.submit 5,
    PoolEvt.passRun 5 none (fun _ => false), PoolEvt.message 0 true true] 0).1
    (by decide)
  have htr : trackedB (poolRun ⟨1, 2⟩ [PoolEvt.submit 5,
      PoolEvt.passRun 5 none (fun _ => false), PoolEvt.message 0 true true]
      initPool) 0 = false := by decide
  rw [htr] at h
  simp at h
  exact ⟨h, htr⟩

/-- C3: the pool never latches a permanent fatal error: after any event
sequence from the initial state `poolInitError` is still `none`, no
`execInPool` call was ever fail-fast rejected with a latched error
(`rejFatalFast` never appears in the settle log), and the queue was never
drained with one (`rejDrain` never appears) — the recovery path retries
with backoff forever, because the latch block in the source is commented
out. -/
theorem pool_never_latches_fatal (cfg : PoolConfig) (es : List PoolEvt) :
    (poolRun cfg es initPool).poolInitError = none ∧
    (poolRun cfg es initPool).settles.all
      (fun p => !(decide (p.2 = Settle.rejFatalFast)
        || decide (p.2 = Settle.rejDrain))) = true := by
  have h := poolRun_inv cfg es initPool poolInv_init
  refine ⟨h.nf, ?_⟩
  rw [List.all_eq_true]
  intro p hp
  have hb := h.noBad p hp
  simp [hb.1, hb.2]

/-- Frame facts used by the age-guard analysis: the queue, timestamps and
fatal latch are untouched, the in-flight map only loses entries, and the
settle log only grows. -/
def PoolFrame (s s' : PoolState) : Prop :=
  s'.queue = s.queue ∧ s'.enqueuedAt = s.enqueuedAt ∧
  s'.poolInitError = s.poolInitError ∧
  (∀ p ∈ s'.inFlight, p ∈ s.inFlight) ∧
  (∀ x ∈ s.settles, x ∈ s'.settles)

theorem PoolFrame.refl (s : PoolState) : PoolFrame s s :=
  ⟨rfl, rfl, rfl, fun _ h => h, fun _ h => h⟩

theorem PoolFrame.comp {a b c : PoolState} (h1 : PoolFrame a b)
    (h2 : PoolFrame b c) : PoolFrame a c :=
  ⟨h2.1.trans h1.1, h2.2.1.trans h1.2.1, h2.2.2.1.trans h1.2.2.1,
   fun p hp => h1.2.2.2.1 p (h2.2.2.2.1 p hp),
   fun x hx => h2.2.2.2.2 x (h1.2.2.2.2 x hx)⟩

theorem frame_settleTask (s : PoolState) (t : Nat) (k : Settle) :
    PoolFrame s (settleTask s t k) :=
  ⟨rfl, rfl, rfl, fun _ h => h, fun x hx => List.mem_cons_of_mem _ hx⟩

theorem frame_setMsgs (s : PoolState) (w v : Nat) :
    PoolFrame s (setMsgs s w v) :=
  ⟨rfl, rfl, rfl, fun _ h => h, fun _ h => h⟩

theorem frame_clearIdle (s : PoolState) (w : Nat) :
    PoolFrame s (clearIdle s w) :=
  ⟨rfl, rfl, rfl, fun _ h => h, fun _ h => h⟩

theorem frame_retireTail (s : PoolState) (w : Nat) :
    PoolFrame s (retireTail s w) :=
  ⟨rfl, rfl, rfl, fun _ h => h, fun _ h => h⟩

theorem frame_clearInFlight (s : PoolState) (w : Nat) :
    PoolFrame s (clearInFlight s w).2 :=
  ⟨rfl, rfl, rfl, fun p hp => (mem_ifErase.mp hp).1, fun _ h => h⟩

theorem frame_setIdle (s : PoolState) (w : Nat) :
    PoolFrame s (setIdle s w) := by
  unfold setIdle
  split
  · exact PoolFrame.refl s
  · exact ⟨rfl, rfl, rfl, fun _ h => h, fun _ h => h⟩

theorem frame_retireWorker (s : PoolState) (w : Nat) :
    PoolFrame s (retireWorker s w) := by
  cases hl : ifLookup s.inFlight w with
  | none =>
    rw [retireWorker_eq_none hl]
    exact (frame_clearInFlight s w).comp (frame_retireTail _ _)
  | some t =>
    rw [retireWorker_eq_some hl]
    exact ((frame_clearInFlight s w).comp (frame_settleTask _ t _)).comp
      (frame_retireTail _ _)

theorem frame_scheduleRefill {s : PoolState} (h : s.poolInitError = none) :
    PoolFrame s (scheduleRefillAndDispatch s) := by
  rw [scheduleRefill_eq h]
  split
  · exact PoolFrame.refl s
  · exact ⟨rfl, rfl, rfl, fun _ h => h, fun _ h => h⟩

theorem frame_releaseWorker (cfg : PoolConfig) (b : Bool) {s : PoolState}
    (w : Nat) (h : s.poolInitError = none) :
    PoolFrame s (releaseWorker cfg b s w) := by
  have f1 : PoolFrame s (retireWorker (setMsgs s w 0) w) :=
    (frame_setMsgs s w 0).comp (frame_retireWorker _ w)
  have f2 : PoolFrame s (setIdle s w) := frame_setIdle s w
  have f3 : PoolFrame s (retireWorker s w) := frame_retireWorker s w
  simp only [releaseWorker]
  split
  · split
    · exact f1
    · split
      · exact f2
      · exact f3
  · split
    · split
      · exact f1.comp (frame_scheduleRefill (f1.2.2.1.trans h))
      · exact f1
    · split
      · split
        · exact f2.comp (frame_scheduleRefill (f2.2.2.1.trans h))
        · exact f2
      · split
        · exact f3.comp (frame_scheduleRefill (f3.2.2.1.trans h))
        · exact f3

theorem frame_takeIdleAux (cfg : PoolConfig) :
    ∀ (fuel : Nat) (s : PoolState), s.poolInitError = none →
      PoolFrame s (takeIdleAux cfg fuel s).2
  | 0, s, h => by
    simp only [takeIdleAux]
    split
    · exact frame_scheduleRefill h
    · exact PoolFrame.refl s
  | fuel + 1, s, h => by
    cases hst : s.idleStack with
    | nil =>
      simp only [takeIdleAux, hst]
      split
      · exact frame_scheduleRefill h
      · exact PoolFrame.refl s
    | cons w rest =>
      simp only [takeIdleAux, hst]
      have f1 : PoolFrame s { s with idleStack := rest } :=
        ⟨rfl, rfl, rfl, fun _ hx => hx, fun _ hx => hx⟩
      split
      · split
        · have f2 : PoolFrame { s with idleStack := rest }
              (releaseWorker cfg true (setMsgs { s with idleStack := rest } w 0) w) :=
            (frame_setMsgs _ w 0).comp (frame_releaseWorker cfg true w h)
          have h2 : (releaseWorker cfg true (setMsgs { s with idleStack := rest } w 0) w).poolInitError = none :=
            f2.2.2.1.trans h
          exact (f1.comp f2).comp (frame_takeIdleAux cfg fuel _ h2)
        · exact f1.comp (frame_clearIdle _ w)
      · exact f1.comp (frame_takeIdleAux cfg fuel _ h)

theorem frame_takeIdleWorker (cfg : PoolConfig) {s : PoolState}
    (h : s.poolInitError = none) : PoolFrame s (takeIdleWorker cfg s).2 :=
  frame_takeIdleAux cfg s.idleStack.length s h

/-- Age-guard summary of a dispatch fragment from `s` to `X`: timestamps
and the latch untouched, settlements only added, every in-flight entry is
either inherited or carries a task that was not expired (queue age not
beyond `MAX_TASK_AGE_MS`), and every expired queued task either is still
queued or has been settled with the max-age rejection. -/
def C9Step (now : Nat) (s X : PoolState) : Prop :=
  X.enqueuedAt = s.enqueuedAt ∧ X.poolInitError = none ∧
  (∀ x ∈ s.settles, x ∈ X.settles) ∧
  (∀ p ∈ X.inFlight, p ∈ s.inFlight ∨
    ¬((s.enqueuedAt p.2 : Int) < (now : Int) - (MAX_TASK_AGE_MS : Int))) ∧
  (∀ t ∈ s.queue, ((s.enqueuedAt t : Int) < (now : Int) - (MAX_TASK_AGE_MS : Int)) →
    t ∈ X.queue ∨ (t, Settle.rejMaxAge) ∈ X.settles)

theorem C9Step.of_frame (now : Nat) {s X : PoolState} (F : PoolFrame s X)
    (h : X.poolInitError = none) : C9Step now s X :=
  ⟨F.2.1, h, F.2.2.2.2, fun p hp => Or.inl (F.2.2.2.1 p hp),
   fun t ht _ => Or.inl (by rw [F.1]; exact ht)⟩

theorem C9Step.chain {now : Nat} {a b c : PoolState} (h1 : C9Step now a b)
    (h2 : C9Step now b c) : C9Step now a c := by
  obtain ⟨e1, p1, s1g, i1, q1⟩ := h1
  obtain ⟨e2, p2, s2g, i2, q2⟩ := h2
  refine ⟨e2.trans e1, p2, fun x hx => s2g x (s1g x hx), ?_, ?_⟩
  · intro p hp
    rcases i2 p hp with hin | hne
    · exact i1 p hin
    · rw [e1] at hne
      exact Or.inr hne
  · intro t ht hexp
    rcases q1 t ht hexp with hq | hs
    · rcases q2 t hq (by rw [e1]; exact hexp) with hq' | hs'
      · exact Or.inl hq'
      · exact Or.inr hs'
    · exact Or.inr (s2g _ hs)

theorem C9Step.trans_frame {now : Nat} {a b c : PoolState}
    (h : C9Step now a b) (F : PoolFrame b c) : C9Step now a c :=
  h.chain (C9Step.of_frame now F (F.2.2.1.trans h.2.1))

/-- Shifting an expired head and settling it with the max-age rejection. -/
theorem c9_step_shift_settle {now : Nat} {s1 : PoolState} {t : Nat}
    {qrest : List Nat} (hq1 : s1.queue = t :: qrest)
    (hnf : s1.poolInitError = none) :
    C9Step now s1 (settleTask { s1 with queue := qrest } t Settle.rejMaxAge) := by
  refine ⟨rfl, hnf, fun x hx => List.mem_cons_of_mem _ hx, ?_, ?_⟩
  · intro p hp
    exact Or.inl hp
  · intro t' ht' hexp
    have ht2 : t' ∈ t :: qrest := by rw [← hq1]; exact ht'
    rcases List.mem_cons.mp ht2 with rfl | hm
    · exact Or.inr (List.mem_cons_self _ _)
    · exact Or.inl hm

/-- Shifting a non-expired head and assigning it to a worker. -/
theorem c9_step_shift_assign {now : Nat} {s1 : PoolState} {w t v : Nat}
    {qrest : List Nat} (hq1 : s1.queue = t :: qrest)
    (hnf : s1.poolInitError = none)
    (hg : ¬((s1.enqueuedAt t : Int) < (now : Int) - (MAX_TASK_AGE_MS : Int))) :
    C9Step now s1 (setInFlight (setMsgs { s1 with queue := qrest } w v) w t) := by
  refine ⟨rfl, hnf, fun x hx => hx, ?_, ?_⟩
  · intro p hp
    have hp' : p ∈ (w, t) :: ifErase s1.inFlight w := hp
    rcases List.mem_cons.mp hp' with rfl | hm
    · exact Or.inr hg
    · exact Or.inl (mem_ifErase.mp hm).1
  · intro t' ht' hexp
    have ht2 : t' ∈ t :: qrest := by rw [← hq1]; exact ht'
    rcases List.mem_cons.mp ht2 with rfl | hm
    · exact absurd hexp hg
    · exact Or.inl hm

/-- The age-guard property of the dispatch loop. -/
theorem dispatchAux_c9 (cfg : PoolConfig) (now : Nat) (pf : Nat → Bool) :
    ∀ (fuel : Nat) (s : PoolState), s.poolInitError = none →
      C9Step now s (dispatchAux cfg now pf fuel s)
  | 0, s, h => C9Step.of_frame now (PoolFrame.refl s) h
  | fuel + 1, s, h => by
    have hfr := frame_takeIdleWorker cfg (s := s) h
    simp only [dispatchAux]
    split
    · split
      · rename_i s1 heq
        rw [heq] at hfr
        exact C9Step.of_frame now hfr (hfr.2.2.1.trans h)
      · rename_i w s1 heq
        rw [heq] at hfr
        have h1 : ((some w, s1).2).poolInitError = none := hfr.2.2.1.trans h
        split
        · exact C9Step.of_frame now hfr h1
        · rename_i t qrest heq2
          split
          · have c1 := (C9Step.of_frame now hfr h1).chain
              (c9_step_shift_settle heq2 h1)
            have c2 := c1.trans_frame (frame_releaseWorker cfg false w c1.2.1)
            exact c2.chain (dispatchAux_c9 cfg now pf fuel _ c2.2.1)
          · rename_i hne
            split
            · simp only [clearInFlight_fst, setMsgs_inFlight, setInFlight_inFlight,
                ifLookup_ifSet]
              have c1 := (C9Step.of_frame now hfr h1).chain
                (c9_step_shift_assign (w := w) (v := s1.msgsRemaining w - 1) heq2 h1 hne)
              have c2 := c1.trans_frame (frame_setMsgs _ w 0)
              have c3 := c2.trans_frame ((frame_clearInFlight _ w).comp
                (frame_settleTask _ t Settle.rejPostFailed))
              have c4 := c3.trans_frame (frame_releaseWorker cfg false w c3.2.1)
              exact c4.chain (dispatchAux_c9 cfg now pf fuel _ c4.2.1)
            · have c1 := (C9Step.of_frame now hfr h1).chain
                (c9_step_shift_assign (w := w) (v := s1.msgsRemaining w - 1) heq2 h1 hne)
              exact c1.chain (dispatchAux_c9 cfg now pf fuel _ c1.2.1)
    · exact C9Step.of_frame now (PoolFrame.refl s) h

theorem drainLoop_idleSet : ∀ (ts : List Nat) (s : PoolState),
    (drainLoop ts s).idleSet = s.idleSet
  | [], _ => rfl
  | t :: ts, s => drainLoop_idleSet ts (settleTask s t Settle.rejDrain)

theorem scheduleRefill_idleSet (s : PoolState) :
    (scheduleRefillAndDispatch s).idleSet = s.idleSet := by
  unfold scheduleRefillAndDispatch
  split
  · show (drainAndRejectQueuedTasks s).idleSet = s.idleSet
    unfold drainAndRejectQueuedTasks
    rw [drainLoop_idleSet]
  · split
    · rfl
    · rfl

theorem mem_setIdle_self (s : PoolState) (w : Nat) :
    w ∈ (setIdle s w).idleSet := by
  unfold setIdle
  split
  · rename_i hc
    exact contains_mem hc
  · exact List.mem_cons_self _ _

/-- The max-age branch hands the popped worker straight back to the pool:
a worker that is not quarantined and has budget left is put back into the
idle set by `releaseWorker`. -/
theorem releaseWorker_release (cfg : PoolConfig) {s2 : PoolState} {w : Nat}
    (hr : s2.retireAfterFlight.contains w = false)
    (hm : 0 < s2.msgsRemaining w) :
    w ∈ (releaseWorker cfg false s2 w).idleSet := by
  have hsi : w ∈ (setIdle s2 w).idleSet := mem_setIdle_self s2 w
  simp only [releaseWorker, hr, Bool.false_eq_true, if_false]
  rw [if_pos hm]
  split
  · rw [scheduleRefill_idleSet]
    exact hsi
  · exact hsi

/-- C9: no task whose queue age exceeds `MAX_TASK_AGE_MS` is ever
dispatched: starting from any un-latched state, every in-flight
assignment made by `dispatch` carries a task that was not expired at
dispatch time, every expired queued task is either still queued or has
been settled with the queue-age rejection at dequeue, and the popped idle
worker of the max-age branch (not quarantined, budget remaining) is
released back into the idle set by `releaseWorker`. -/
theorem dispatch_never_dispatches_expired (cfg : PoolConfig) (now : Nat)
    (postFail : Nat → Bool) (s : PoolState) (h : s.poolInitError = none) :
    (∀ p ∈ (dispatch cfg now postFail s).inFlight, p ∈ s.inFlight ∨
      ¬((s.enqueuedAt p.2 : Int) < (now : Int) - (MAX_TASK_AGE_MS : Int))) ∧
    (∀ t ∈ s.queue,
      ((s.enqueuedAt t : Int) < (now : Int) - (MAX_TASK_AGE_MS : Int)) →
      t ∈ (dispatch cfg now postFail s).queue ∨
        (t, Settle.rejMaxAge) ∈ (dispatch cfg now postFail s).settles) ∧
    (∀ (w : Nat) (s2 : PoolState), s2.retireAfterFlight.contains w = false →
      0 < s2.msgsRemaining w → w ∈ (releaseWorker cfg false s2 w).idleSet) := by
  have hc := dispatchAux_c9 cfg now postFail s.queue.length s h
  exact ⟨hc.2.2.2.1, hc.2.2.2.2,
    fun w s2 hr hm => releaseWorker_release cfg hr hm⟩

/-- A one-worker pool state holding a single queued task enqueued at time
0, used to exercise the dispatch age guard. -/
def c9S : PoolState :=
  { nextWorkerId := 1, workersArr := [0], msgsRemaining := (fun _ => 5),
    idleStack := [0], idleSet := [0], inFlight := [], inFlightWorkerSet := [],
    retireAfterFlight := [], queue := [0], enqueuedAt := (fun _ => 0),
    nextTaskId := 1, settles := [], poolInitError := none,
    recoveryFailures := 0, recoveryBackoffMs := 25, recoveryTimerArmed := false,
    refillScheduled := false }

theorem dispatch_never_dispatches_expired_witness :
    ((0, Settle.rejMaxAge) ∈
      (dispatch ⟨1, 2⟩ (MAX_TASK_AGE_MS + 1) (fun _ => false) c9S).settles) ∧
    (dispatch ⟨1, 2⟩ (MAX_TASK_AGE_MS + 1) (fun _ => false) c9S).inFlight = [] ∧
    0 ∈ (releaseWorker ⟨1, 2⟩ false
      (settleTask { c9S with queue := [] } 0 Settle.rejMaxAge) 0).idleSet := by
  have h := dispatch_never_dispatches_expired ⟨1, 2⟩ (MAX_TASK_AGE_MS + 1)
    (fun _ => false) c9S rfl
  refine ⟨?_, by decide, ?_⟩
  · have h2 := h.2.1 0 (by decide) (by decide)
    rcases h2 with hq | hs
    · exact absurd hq (by decide)
    · exact hs
  · exact h.2.2 0 (settleTask { c9S with queue := [] } 0 Settle.rejMaxAge)
      (by decide) (by decide)

end YtCipher
